import Mathlib

/-!
Shallow embedding of the maze program (`src/main.rs`).

The program is a rectangular grid maze: a `Maze` stores its dimensions and two
flat boolean wall arrays (`east_walls`, `south_walls`), exposes bounds-checked
`neighbor`/`passage`/`carve` operations, a row-major enumeration
(`nth_point`, `MazeIterator`), and a binary-tree carving generator
(`binary_tree`).

Modelling conventions:
* Rust `usize` values are modelled as `Nat`; `checked_sub` becomes a `match`
  on the predecessor, mirroring the saturating-free, wraparound-free source.
* `Vec<bool>` is modelled as `List Bool`.  A Rust index expression
  `v[i]` panics when `i` is out of range; reads are therefore modelled with
  `List.get?` (a `none` read models the panic) and writes are guarded by an
  explicit bounds test whose failure yields `none` (the panic outcome).
* A Rust method returning `Result<T, BoundsError>` that can additionally
  panic is modelled as `Option (Except BoundsError _)`-shaped data:
  `none` is the panic, `some (Except.error e)` the `Err` return,
  `some (Except.ok _)` the `Ok` return.  `carve` takes `&mut self`, so its
  model returns the post-state together with the `Result`.
* `rand::random()` draws one independent boolean per ambiguous cell of the
  generator.  The generator draws at most once per cell, so the ambient
  stream of outcomes is modelled as a function `flips : Nat → Bool` indexed
  by the cell's linear index; quantifying over all such functions ranges over
  exactly the possible outcome sequences.
* `nth_point` computes `n % width` and `n / width`; in Rust this panics when
  `width = 0`, while `Nat` division totalises it.  Every theorem about
  `nth_point` below assumes `0 < width`, where the two semantics agree.
-/

/-- Error type of the source (`struct BoundsError;`). -/
structure BoundsError : Type where
  deriving DecidableEq

/-- A cell coordinate (`struct Point { x: usize, y: usize }`). -/
structure Point : Type where
  x : Nat
  y : Nat
  deriving DecidableEq

/-- The four cardinal directions (`enum Dir`). -/
inductive Dir : Type where
  | North
  | South
  | East
  | West
  deriving DecidableEq

/-- The maze grid (`struct Maze`): dimensions and the two flat wall arrays. -/
structure Maze : Type where
  width : Nat
  height : Nat
  east_walls : List Bool
  south_walls : List Bool
  deriving DecidableEq

/-- Model of `Point::translate`: move one step in a direction; `checked_sub` makes a
step north from `y = 0` or west from `x = 0` yield `none`. -/
def Point.translate (p : Point) (d : Dir) : Option Point :=
  match d with
  | Dir.North =>
    match p.y with
    | 0 => none
    | Nat.succ y0 => some ⟨p.x, y0⟩
  | Dir.South => some ⟨p.x, p.y + 1⟩
  | Dir.East => some ⟨p.x + 1, p.y⟩
  | Dir.West =>
    match p.x with
    | 0 => none
    | Nat.succ x0 => some ⟨x0, p.y⟩

namespace Maze

/-- Model of `Maze::new`: construction fails on a zero dimension; otherwise both wall
arrays are fully closed (`true`). -/
def new (width height : Nat) : Except BoundsError Maze :=
  if 0 < width ∧ 0 < height then
    Except.ok
      { width := width, height := height,
        east_walls := List.replicate (height * (width - 1)) true,
        south_walls := List.replicate (width * (height - 1)) true }
  else
    Except.error ⟨⟩

/-- Model of `Maze::valid`: the coordinate is inside the grid. -/
def valid (m : Maze) (p : Point) : Bool :=
  decide (p.x < m.width) && decide (p.y < m.height)

/-- Model of `Maze::corner`: both coordinates sit on an extreme value.  Note the
source does not test `valid` here. -/
def corner (m : Maze) (p : Point) : Bool :=
  (decide (p.x = 0) || decide (p.x = m.width - 1)) &&
    (decide (p.y = 0) || decide (p.y = m.height - 1))

/-- Model of `Maze::neighbor`: translate one step, then keep the result only if it is
valid. -/
def neighbor (m : Maze) (p : Point) (d : Dir) : Option Point :=
  match p.translate d with
  | none => none
  | some n => if m.valid n then some n else none

/-- Model of `Maze::nth_point`: row-major linear index to coordinate. -/
def nth_point (m : Maze) (n : Nat) : Option Point :=
  let pt : Point := ⟨n % m.width, n / m.width⟩
  if m.valid pt then some pt else none

/-- Model of `Maze::passage`: a passage exists iff the neighbor exists and the shared
wall flag is clear.  `none` models the Rust index panic (reachable only for
coordinates outside the grid); `some b` is the returned boolean. -/
def passage (m : Maze) (p : Point) (d : Dir) : Option Bool :=
  match m.neighbor p d with
  | some _ =>
    match d with
    | Dir.North => (m.south_walls[p.x + m.width * (p.y - 1)]?).map (fun b => !b)
    | Dir.South => (m.south_walls[p.x + m.width * p.y]?).map (fun b => !b)
    | Dir.East => (m.east_walls[p.x + (m.width - 1) * p.y]?).map (fun b => !b)
    | Dir.West => (m.east_walls[p.x - 1 + (m.width - 1) * p.y]?).map (fun b => !b)
  | none => some false

/-- Model of `Maze::carve`: clear the wall flag between `p` and its neighbor in `d`,
using the same index formulas as `passage`.  Result: post-state paired with
the `Result<(), BoundsError>`; `none` models the index panic. -/
def carve (m : Maze) (p : Point) (d : Dir) : Option (Maze × Except BoundsError Unit) :=
  match m.neighbor p d with
  | some _ =>
    match d with
    | Dir.North =>
      let i := p.x + m.width * (p.y - 1)
      if i < m.south_walls.length then
        some ({ m with south_walls := m.south_walls.set i false }, Except.ok ())
      else none
    | Dir.South =>
      let i := p.x + m.width * p.y
      if i < m.south_walls.length then
        some ({ m with south_walls := m.south_walls.set i false }, Except.ok ())
      else none
    | Dir.East =>
      let i := p.x + (m.width - 1) * p.y
      if i < m.east_walls.length then
        some ({ m with east_walls := m.east_walls.set i false }, Except.ok ())
      else none
    | Dir.West =>
      let i := p.x - 1 + (m.width - 1) * p.y
      if i < m.east_walls.length then
        some ({ m with east_walls := m.east_walls.set i false }, Except.ok ())
      else none
  | none => some (m, Except.error ⟨⟩)

/-- One loop iteration of `Maze::binary_tree` at linear index `i`.  The
`.expect("")` on a failed carve, like an index panic, is modelled by `none`. -/
def btStep (flips : Nat → Bool) (mz : Maze) (i : Nat) : Option Maze :=
  match mz.nth_point i with
  | none => some mz
  | some pt =>
    let n := (mz.neighbor pt Dir.North).isSome
    let e := (mz.neighbor pt Dir.East).isSome
    if n && !e then
      match mz.carve pt Dir.North with
      | some (m1, Except.ok _) => some m1
      | _ => none
    else if e && !n then
      match mz.carve pt Dir.East with
      | some (m1, Except.ok _) => some m1
      | _ => none
    else if n && e then
      if flips i then
        match mz.carve pt Dir.North with
        | some (m1, Except.ok _) => some m1
        | _ => none
      else
        match mz.carve pt Dir.East with
        | some (m1, Except.ok _) => some m1
        | _ => none
    else
      some mz

/-- Model of `Maze::binary_tree`: visit every linear index in row-major order,
carving north or east at each cell per the binary-tree rule. -/
def binary_tree (m : Maze) (flips : Nat → Bool) : Option Maze :=
  (List.range (m.width * m.height)).foldlM (fun mz i => btStep flips mz i) m

end Maze

/-- Model of `struct MazeIterator`: an iteration cursor over a maze. -/
structure MazeIterator : Type where
  maze : Maze
  n : Nat

/-- Model of `Maze::iter`: fresh iterator starting at linear index 0. -/
def Maze.iter (m : Maze) : MazeIterator := ⟨m, 0⟩

/-- Model of `MazeIterator::next`: emit `nth_point n` and advance the cursor. -/
def MazeIterator.next (it : MazeIterator) : Option Point × MazeIterator :=
  (it.maze.nth_point it.n, ⟨it.maze, it.n + 1⟩)

/-- Advance an iterator by `k` calls to `next`. -/
def MazeIterator.stepN (it : MazeIterator) : Nat → MazeIterator
  | 0 => it
  | k + 1 => (it.next.2).stepN k

/-- The value emitted by the `(k+1)`-st call to `next`. -/
def MazeIterator.outputAt (it : MazeIterator) (k : Nat) : Option Point :=
  ((it.stepN k).next).1

/-- Opposite direction, the pairing used by the specification's symmetry
property: North/South and East/West swap. -/
def Dir.opposite : Dir → Dir
  | Dir.North => Dir.South
  | Dir.South => Dir.North
  | Dir.East => Dir.West
  | Dir.West => Dir.East

/-- Well-formedness of the wall storage: both arrays have exactly the lengths
`Maze::new` allocates.  Every maze produced by the API satisfies this. -/
def Maze.WF (m : Maze) : Prop :=
  m.east_walls.length = m.height * (m.width - 1) ∧
    m.south_walls.length = m.width * (m.height - 1)

/-- Linear (row-major) index of a cell, as used by `nth_point`. -/
def cellIndex (w : Nat) (p : Point) : Nat := p.x + w * p.y

/-- Whether a valid cell has a north neighbor. -/
def hasNorthNbr (p : Point) : Bool := decide (0 < p.y)

/-- Whether a valid cell has an east neighbor. -/
def hasEastNbr (w : Nat) (p : Point) : Bool := decide (p.x + 1 < w)

/-- Whether the generator carves north at a (valid) cell: forced north when
only the north neighbor exists, or the coin flip chooses north. -/
def carvesNorth (w : Nat) (flips : Nat → Bool) (p : Point) : Bool :=
  hasNorthNbr p && (!(hasEastNbr w p) || flips (cellIndex w p))

/-- Whether the generator carves east at a (valid) cell. -/
def carvesEast (w : Nat) (flips : Nat → Bool) (p : Point) : Bool :=
  hasEastNbr w p && (!(hasNorthNbr p) || !(flips (cellIndex w p)))

/-- The cell whose north carve clears south-wall slot `j`. -/
def southOwner (w : Nat) (j : Nat) : Point := ⟨j % w, j / w + 1⟩

/-- The cell whose east carve clears east-wall slot `j`. -/
def eastOwner (w : Nat) (j : Nat) : Point := ⟨j % (w - 1), j / (w - 1)⟩

/-- Closed form for the generator's intermediate states: the grid after the
cells with linear index `< k` have been processed.  A wall flag is clear
exactly when its owning cell has already acted and chose that direction. -/
def mazeAfter (w h : Nat) (flips : Nat → Bool) (k : Nat) : Maze :=
  { width := w, height := h,
    east_walls := (List.range (h * (w - 1))).map (fun j =>
      !(carvesEast w flips (eastOwner w j) &&
        decide (cellIndex w (eastOwner w j) < k))),
    south_walls := (List.range (w * (h - 1))).map (fun j =>
      !(carvesNorth w flips (southOwner w j) &&
        decide (cellIndex w (southOwner w j) < k))) }

/-- A carved passage leads from `p` to `q`: some direction whose neighbor is
`q` and whose passage is open. -/
def passageConn (m : Maze) (p q : Point) : Prop :=
  ∃ d : Dir, m.neighbor p d = some q ∧ m.passage p d = some true

/-- The undirected graph of carved passages: two distinct cells are adjacent
when both are valid and a passage joins them (in either reading direction;
the two readings agree by the wall-symmetry theorem proved below). -/
def passageGraph (m : Maze) : SimpleGraph Point :=
  SimpleGraph.fromRel (fun p q =>
    m.valid p = true ∧ m.valid q = true ∧ passageConn m p q)

/-- The top-right cell, the unique cell where the generator carves nothing. -/
def rootPt (w : Nat) : Point := ⟨w - 1, 0⟩

/-- Parent of a cell in the carved tree: the cell its north or east carve
connects it to.  Cells outside the grid and the root are fixed points. -/
def parentPt (w h : Nat) (flips : Nat → Bool) (p : Point) : Point :=
  if p.x < w ∧ p.y < h ∧ p ≠ rootPt w then
    if carvesNorth w flips p then ⟨p.x, p.y - 1⟩
    else if carvesEast w flips p then ⟨p.x + 1, p.y⟩
    else p
  else p

/-- Rank used to orient the carved tree: strictly decreases along parents. -/
def muRank (w : Nat) (p : Point) : Nat := p.y * w + (w - 1 - p.x)

/-- Number of carved (cleared) wall flags. -/
def carvedCount (m : Maze) : Nat :=
  m.east_walls.count false + m.south_walls.count false

/-- The flat index addressed by `carve`/`passage` for a coordinate and
direction (the source's four index formulas, one per direction). -/
def carveIdx (m : Maze) (p : Point) : Dir → Nat
  | Dir.North => p.x + m.width * (p.y - 1)
  | Dir.South => p.x + m.width * p.y
  | Dir.East => p.x + (m.width - 1) * p.y
  | Dir.West => p.x - 1 + (m.width - 1) * p.y

/-- Which wall array `carve`/`passage` addresses for a direction. -/
def usesSouthArray : Dir → Bool
  | Dir.North => true
  | Dir.South => true
  | Dir.East => false
  | Dir.West => false

/-- A concrete 5×5 grid with all walls closed, for witnesses. -/
def sample55 : Maze :=
  { width := 5, height := 5,
    east_walls := List.replicate 20 true, south_walls := List.replicate 20 true }

/-- A concrete 2×2 grid with all walls closed, for witnesses. -/
def sample22 : Maze :=
  { width := 2, height := 2,
    east_walls := List.replicate 2 true, south_walls := List.replicate 2 true }

/-!  Theorems.  First, characterisations of the coordinate arithmetic. -/

theorem translate_north (px py : Nat) :
    Point.translate ⟨px, py⟩ Dir.North =
      if 0 < py then some ⟨px, py - 1⟩ else none := by
  cases py <;> simp [Point.translate]

theorem translate_south (px py : Nat) :
    Point.translate ⟨px, py⟩ Dir.South = some ⟨px, py + 1⟩ := rfl

theorem translate_east (px py : Nat) :
    Point.translate ⟨px, py⟩ Dir.East = some ⟨px + 1, py⟩ := rfl

theorem translate_west (px py : Nat) :
    Point.translate ⟨px, py⟩ Dir.West =
      if 0 < px then some ⟨px - 1, py⟩ else none := by
  cases px <;> simp [Point.translate]

theorem neighbor_north (m : Maze) (px py : Nat) :
    m.neighbor ⟨px, py⟩ Dir.North =
      if 0 < py ∧ m.valid ⟨px, py - 1⟩ = true then some ⟨px, py - 1⟩ else none := by
  unfold Maze.neighbor
  rw [translate_north]
  by_cases h : 0 < py
  · by_cases hv : m.valid ⟨px, py - 1⟩ = true <;> simp [h, hv]
  · simp [h]

theorem neighbor_south (m : Maze) (px py : Nat) :
    m.neighbor ⟨px, py⟩ Dir.South =
      if m.valid ⟨px, py + 1⟩ = true then some ⟨px, py + 1⟩ else none := by
  unfold Maze.neighbor
  rw [translate_south]

theorem neighbor_east (m : Maze) (px py : Nat) :
    m.neighbor ⟨px, py⟩ Dir.East =
      if m.valid ⟨px + 1, py⟩ = true then some ⟨px + 1, py⟩ else none := by
  unfold Maze.neighbor
  rw [translate_east]

theorem neighbor_west (m : Maze) (px py : Nat) :
    m.neighbor ⟨px, py⟩ Dir.West =
      if 0 < px ∧ m.valid ⟨px - 1, py⟩ = true then some ⟨px - 1, py⟩ else none := by
  unfold Maze.neighbor
  rw [translate_west]
  by_cases h : 0 < px
  · by_cases hv : m.valid ⟨px - 1, py⟩ = true <;> simp [h, hv]
  · simp [h]

theorem valid_iff (m : Maze) (p : Point) :
    m.valid p = true ↔ p.x < m.width ∧ p.y < m.height := by
  simp [Maze.valid]

/-- Claim C7: `neighbor` translates one step (North: y−1, South: y+1,
East: x+1, West: x−1) and returns the result exactly when the subtraction
stays non-negative and the result is valid; stepping North from `y = 0` or
West from `x = 0` yields nothing for every grid size. -/
theorem claim_C7_neighbor (m : Maze) (p : Point) :
    (m.neighbor p Dir.North =
      if 0 < p.y ∧ m.valid ⟨p.x, p.y - 1⟩ = true then some ⟨p.x, p.y - 1⟩ else none) ∧
    (m.neighbor p Dir.South =
      if m.valid ⟨p.x, p.y + 1⟩ = true then some ⟨p.x, p.y + 1⟩ else none) ∧
    (m.neighbor p Dir.East =
      if m.valid ⟨p.x + 1, p.y⟩ = true then some ⟨p.x + 1, p.y⟩ else none) ∧
    (m.neighbor p Dir.West =
      if 0 < p.x ∧ m.valid ⟨p.x - 1, p.y⟩ = true then some ⟨p.x - 1, p.y⟩ else none) ∧
    (p.y = 0 → m.neighbor p Dir.North = none) ∧
    (p.x = 0 → m.neighbor p Dir.West = none) := by
  rcases p with ⟨px, py⟩
  refine ⟨neighbor_north m px py, neighbor_south m px py, neighbor_east m px py,
    neighbor_west m px py, ?_, ?_⟩
  · rintro rfl
    rw [neighbor_north]
    simp
  · rintro rfl
    rw [neighbor_west]
    simp

/-- Claim C7 witness: at the concrete corner `(0,0)` of a 5×5 grid the
no-wraparound conclusions hold. -/
theorem claim_C7_neighbor_witness :
    sample55.neighbor ⟨0, 0⟩ Dir.North = none ∧
      sample55.neighbor ⟨0, 0⟩ Dir.West = none :=
  ⟨(claim_C7_neighbor sample55 ⟨0, 0⟩).2.2.2.2.1 rfl,
    (claim_C7_neighbor sample55 ⟨0, 0⟩).2.2.2.2.2 rfl⟩

/-- Claim C5: construction fails exactly on a zero dimension; on success the
wall arrays have lengths `height*(width-1)` and `width*(height-1)` and every
entry is `true`. -/
theorem claim_C5_new (w h : Nat) :
    ((∃ e, Maze.new w h = Except.error e) ↔ w = 0 ∨ h = 0) ∧
    (∀ m, Maze.new w h = Except.ok m →
      m.width = w ∧ m.height = h ∧
      m.east_walls.length = h * (w - 1) ∧
      m.south_walls.length = w * (h - 1) ∧
      (∀ b ∈ m.east_walls, b = true) ∧
      (∀ b ∈ m.south_walls, b = true)) := by
  unfold Maze.new
  by_cases hc : 0 < w ∧ 0 < h
  · rw [if_pos hc]
    constructor
    · constructor
      · rintro ⟨e, he⟩
        cases he
      · intro h0
        omega
    · rintro m hm
      cases hm
      refine ⟨rfl, rfl, by simp, by simp, ?_, ?_⟩ <;>
        · intro b hb
          exact List.eq_of_mem_replicate hb
  · rw [if_neg hc]
    constructor
    · constructor
      · intro _
        omega
      · intro _
        exact ⟨⟨⟩, rfl⟩
    · rintro m hm
      cases hm

/-- Claim C5 witness: a failing and a succeeding construction. -/
theorem claim_C5_new_witness :
    ((∃ e, Maze.new 0 3 = Except.error e) ↔ (0 : Nat) = 0 ∨ (3 : Nat) = 0) ∧
    ((Maze.new 5 5 = Except.ok sample55) ∧
      sample55.east_walls.length = 5 * (5 - 1) ∧
      (∀ b ∈ sample55.south_walls, b = true)) := by
  refine ⟨(claim_C5_new 0 3).1, rfl, ?_, ?_⟩
  · exact ((claim_C5_new 5 5).2 sample55 rfl).2.2.1
  · exact ((claim_C5_new 5 5).2 sample55 rfl).2.2.2.2.2

/-- Claim C8 counterexample: the claim asserts that some grid with positive
dimensions has an out-of-range coordinate on which `corner` reports true.
No such grid and coordinate exist: `corner` forces `x ∈ {0, width-1}` AND
`y ∈ {0, height-1}`, which already places the coordinate in range. -/
theorem claim_C8_counterexample :
    ¬ ∃ (m : Maze) (p : Point),
        0 < m.width ∧ 0 < m.height ∧ m.corner p = true ∧ m.valid p = false := by
  rintro ⟨m, p, hw, hh, hc, hv⟩
  unfold Maze.corner at hc
  simp only [Bool.and_eq_true, Bool.or_eq_true, decide_eq_true_eq] at hc
  have hv2 : ¬ (p.x < m.width ∧ p.y < m.height) := by
    rw [← valid_iff m p]
    simp [hv]
  omega

/-- Claim C8 amended: `corner` indeed tests only the two extreme-value
memberships without consulting `valid`, but on every grid with positive
dimensions a coordinate passing that test is necessarily valid — no
out-of-range coordinate can spuriously report true. -/
theorem claim_C8_amended (m : Maze) (p : Point)
    (hw : 0 < m.width) (hh : 0 < m.height) (hc : m.corner p = true) :
    m.valid p = true := by
  unfold Maze.corner at hc
  simp only [Bool.and_eq_true, Bool.or_eq_true, decide_eq_true_eq] at hc
  rw [valid_iff]
  omega

/-- Claim C8 amended, witness at the corner `(4,0)` of a 5×5 grid. -/
theorem claim_C8_amended_witness :
    0 < sample55.width ∧ 0 < sample55.height ∧ sample55.corner ⟨4, 0⟩ = true ∧
      sample55.valid ⟨4, 0⟩ = true :=
  ⟨by decide, by decide, by decide,
    claim_C8_amended sample55 ⟨4, 0⟩ (by decide) (by decide) (by decide)⟩

/-- Reading a wall flag through the negation map yields true exactly when
the flag is present and clear. -/
theorem map_not_eq_some_true (o : Option Bool) :
    o.map (fun b => !b) = some true ↔ o = some false := by
  cases o with
  | none => simp
  | some b => cases b <;> simp

/-- Claim C2: `passage p d` is true exactly when the neighbor exists and the
wall flag at the direction's flat index is clear — North reads the south wall
at `x + width*(y-1)`, South the south wall at `x + width*y`, East the east
wall at `x + (width-1)*y`, West the east wall at `(x-1) + (width-1)*y` — and
a direction with no neighbor reports false without error. -/
theorem claim_C2_passage (m : Maze) (p : Point) (d : Dir) :
    (m.neighbor p d = none → m.passage p d = some false) ∧
    (m.passage p d = some true ↔
      (m.neighbor p d).isSome = true ∧
      (match d with
        | Dir.North => m.south_walls[p.x + m.width * (p.y - 1)]?
        | Dir.South => m.south_walls[p.x + m.width * p.y]?
        | Dir.East => m.east_walls[p.x + (m.width - 1) * p.y]?
        | Dir.West => m.east_walls[p.x - 1 + (m.width - 1) * p.y]?) = some false) := by
  constructor
  · intro h0
    unfold Maze.passage
    rw [h0]
  · rcases hn : m.neighbor p d with _ | q
    · unfold Maze.passage
      rw [hn]
      simp
    · unfold Maze.passage
      rw [hn]
      cases d <;> simp [map_not_eq_some_true]

/-- Claim C2 witness: the south passage of `(0,0)` on a fresh 2×2 grid is
closed, and the off-grid west direction reports false. -/
theorem claim_C2_passage_witness :
    (sample22.neighbor ⟨0, 0⟩ Dir.West = none → sample22.passage ⟨0, 0⟩ Dir.West = some false) ∧
      sample22.passage ⟨0, 0⟩ Dir.West = some false :=
  ⟨(claim_C2_passage sample22 ⟨0, 0⟩ Dir.West).1,
    (claim_C2_passage sample22 ⟨0, 0⟩ Dir.West).1 (by decide)⟩

/-- Wall symmetry of `passage` across a shared wall: reading from either
side addresses the same flat index of the same array. -/
theorem passage_symm (m : Maze) (p q : Point) (d : Dir)
    (hvp : m.valid p = true) (hn : m.neighbor p d = some q) :
    m.passage p d = m.passage q d.opposite := by
  rcases p with ⟨px, py⟩
  cases d
  case North =>
    rw [neighbor_north] at hn
    by_cases hc : 0 < py ∧ m.valid ⟨px, py - 1⟩ = true
    · rw [if_pos hc] at hn
      cases hn
      have hrev : m.neighbor ⟨px, py - 1⟩ Dir.South = some ⟨px, py⟩ := by
        rw [neighbor_south]
        have hb : py - 1 + 1 = py := by omega
        rw [hb, if_pos hvp]
      simp only [Dir.opposite]
      unfold Maze.passage
      rw [neighbor_north, if_pos hc, hrev]
    · rw [if_neg hc] at hn
      cases hn
  case South =>
    rw [neighbor_south] at hn
    by_cases hc : m.valid ⟨px, py + 1⟩ = true
    · rw [if_pos hc] at hn
      cases hn
      have hrev : m.neighbor ⟨px, py + 1⟩ Dir.North = some ⟨px, py⟩ := by
        rw [neighbor_north]
        simp [hvp]
      simp only [Dir.opposite]
      unfold Maze.passage
      rw [neighbor_south, if_pos hc, hrev]
      rfl
    · rw [if_neg hc] at hn
      cases hn
  case East =>
    rw [neighbor_east] at hn
    by_cases hc : m.valid ⟨px + 1, py⟩ = true
    · rw [if_pos hc] at hn
      cases hn
      have hrev : m.neighbor ⟨px + 1, py⟩ Dir.West = some ⟨px, py⟩ := by
        rw [neighbor_west]
        simp [hvp]
      simp only [Dir.opposite]
      unfold Maze.passage
      rw [neighbor_east, if_pos hc, hrev]
      rfl
    · rw [if_neg hc] at hn
      cases hn
  case West =>
    rw [neighbor_west] at hn
    by_cases hc : 0 < px ∧ m.valid ⟨px - 1, py⟩ = true
    · rw [if_pos hc] at hn
      cases hn
      have hrev : m.neighbor ⟨px - 1, py⟩ Dir.East = some ⟨px, py⟩ := by
        rw [neighbor_east]
        have hb : px - 1 + 1 = px := by omega
        rw [hb, if_pos hvp]
      simp only [Dir.opposite]
      unfold Maze.passage
      rw [neighbor_west, if_pos hc, hrev]
    · rw [if_neg hc] at hn
      cases hn

/-- Claim C3: for every grid, valid coordinate `p` and direction `d` with a
neighbor `q`, reading the passage from `p` equals reading it from `q` in the
opposite direction (North/South and East/West swap). -/
theorem claim_C3_symmetry (m : Maze) (p q : Point) (d : Dir)
    (hvp : m.valid p = true) (hn : m.neighbor p d = some q) :
    m.passage p d = m.passage q d.opposite :=
  passage_symm m p q d hvp hn

/-- Claim C3 witness at a concrete grid, coordinate and direction. -/
theorem claim_C3_symmetry_witness :
    sample22.valid ⟨0, 0⟩ = true ∧
      sample22.neighbor ⟨0, 0⟩ Dir.South = some ⟨0, 1⟩ ∧
      sample22.passage ⟨0, 0⟩ Dir.South = sample22.passage ⟨0, 1⟩ Dir.South.opposite :=
  ⟨by decide, by decide,
    claim_C3_symmetry sample22 ⟨0, 0⟩ ⟨0, 1⟩ Dir.South (by decide) (by decide)⟩

/-- Calling `carve` with no neighbor returns the unchanged maze and a bounds error. -/
theorem carve_eq_of_neighbor_none (m : Maze) (p : Point) (d : Dir)
    (hn : m.neighbor p d = none) : m.carve p d = some (m, Except.error ⟨⟩) := by
  unfold Maze.carve
  rw [hn]

theorem carve_north_eq (m : Maze) (p q : Point)
    (hn : m.neighbor p Dir.North = some q) :
    m.carve p Dir.North =
      if p.x + m.width * (p.y - 1) < m.south_walls.length then
        some ({ m with
          south_walls := m.south_walls.set (p.x + m.width * (p.y - 1)) false },
          Except.ok ())
      else none := by
  unfold Maze.carve
  rw [hn]

theorem carve_south_eq (m : Maze) (p q : Point)
    (hn : m.neighbor p Dir.South = some q) :
    m.carve p Dir.South =
      if p.x + m.width * p.y < m.south_walls.length then
        some ({ m with
          south_walls := m.south_walls.set (p.x + m.width * p.y) false },
          Except.ok ())
      else none := by
  unfold Maze.carve
  rw [hn]

theorem carve_east_eq (m : Maze) (p q : Point)
    (hn : m.neighbor p Dir.East = some q) :
    m.carve p Dir.East =
      if p.x + (m.width - 1) * p.y < m.east_walls.length then
        some ({ m with
          east_walls := m.east_walls.set (p.x + (m.width - 1) * p.y) false },
          Except.ok ())
      else none := by
  unfold Maze.carve
  rw [hn]

theorem carve_west_eq (m : Maze) (p q : Point)
    (hn : m.neighbor p Dir.West = some q) :
    m.carve p Dir.West =
      if p.x - 1 + (m.width - 1) * p.y < m.east_walls.length then
        some ({ m with
          east_walls := m.east_walls.set (p.x - 1 + (m.width - 1) * p.y) false },
          Except.ok ())
      else none := by
  unfold Maze.carve
  rw [hn]

/-- Calling `passage` with no neighbor reports no passage. -/
theorem passage_eq_of_neighbor_none (m : Maze) (p : Point) (d : Dir)
    (hn : m.neighbor p d = none) : m.passage p d = some false := by
  unfold Maze.passage
  rw [hn]

theorem passage_north_eq (m : Maze) (p q : Point)
    (hn : m.neighbor p Dir.North = some q) :
    m.passage p Dir.North =
      (m.south_walls[p.x + m.width * (p.y - 1)]?).map (fun b => !b) := by
  unfold Maze.passage
  rw [hn]

theorem passage_south_eq (m : Maze) (p q : Point)
    (hn : m.neighbor p Dir.South = some q) :
    m.passage p Dir.South =
      (m.south_walls[p.x + m.width * p.y]?).map (fun b => !b) := by
  unfold Maze.passage
  rw [hn]

theorem passage_east_eq (m : Maze) (p q : Point)
    (hn : m.neighbor p Dir.East = some q) :
    m.passage p Dir.East =
      (m.east_walls[p.x + (m.width - 1) * p.y]?).map (fun b => !b) := by
  unfold Maze.passage
  rw [hn]

theorem passage_west_eq (m : Maze) (p q : Point)
    (hn : m.neighbor p Dir.West = some q) :
    m.passage p Dir.West =
      (m.east_walls[p.x - 1 + (m.width - 1) * p.y]?).map (fun b => !b) := by
  unfold Maze.passage
  rw [hn]

/-- Claim C4: `carve` fails with `BoundsError` exactly when there is no
neighbor in the direction; on success it clears the wall flag at the same
flat index `passage` reads, making the passage open, and carving again is a
no-op success (idempotence). -/
theorem claim_C4_carve (m : Maze) (p : Point) (d : Dir) :
    (m.carve p d = some (m, Except.error ⟨⟩) ↔ m.neighbor p d = none) ∧
    (∀ m1, m.carve p d = some (m1, Except.ok ()) →
      (match d with
        | Dir.North => m1.south_walls[p.x + m.width * (p.y - 1)]?
        | Dir.South => m1.south_walls[p.x + m.width * p.y]?
        | Dir.East => m1.east_walls[p.x + (m.width - 1) * p.y]?
        | Dir.West => m1.east_walls[p.x - 1 + (m.width - 1) * p.y]?) = some false ∧
      m1.passage p d = some true ∧
      m1.carve p d = some (m1, Except.ok ())) := by
  rcases hn : m.neighbor p d with _ | q
  · rw [carve_eq_of_neighbor_none m p d hn]
    constructor
    · exact ⟨fun _ => rfl, fun _ => rfl⟩
    · intro m1 hsucc
      injection hsucc with h1
      injection h1 with hA hB
      cases hB
  · cases d
    case North =>
      rw [carve_north_eq m p q hn]
      by_cases hi : p.x + m.width * (p.y - 1) < m.south_walls.length
      · rw [if_pos hi]
        constructor
        · constructor
          · intro hcontra
            injection hcontra with h1
            injection h1 with hA hB
            cases hB
          · intro hcontra
            cases hcontra
        · intro m1 hsucc
          injection hsucc with h1
          injection h1 with hA hB
          subst hA
          have hn1 : ({ m with south_walls := m.south_walls.set (p.x + m.width * (p.y - 1)) false } : Maze).neighbor p Dir.North = some q := hn
          refine ⟨?_, ?_, ?_⟩
          · show (m.south_walls.set (p.x + m.width * (p.y - 1)) false)[p.x + m.width * (p.y - 1)]? = some false
            rw [List.getElem?_set_self', List.getElem?_eq_getElem hi]
            rfl
          · rw [passage_north_eq _ p q hn1]
            show ((m.south_walls.set (p.x + m.width * (p.y - 1)) false)[p.x + m.width * (p.y - 1)]?).map (fun b => !b) = some true
            rw [List.getElem?_set_self', List.getElem?_eq_getElem hi]
            rfl
          · rw [carve_north_eq _ p q hn1]
            show (if p.x + m.width * (p.y - 1) < (m.south_walls.set (p.x + m.width * (p.y - 1)) false).length then _ else none) = _
            simp [hi, List.set_set]
      · rw [if_neg hi]
        constructor
        · constructor
          · intro hcontra
            cases hcontra
          · intro hcontra
            cases hcontra
        · intro m1 hsucc
          cases hsucc
    case South =>
      rw [carve_south_eq m p q hn]
      by_cases hi : p.x + m.width * p.y < m.south_walls.length
      · rw [if_pos hi]
        constructor
        · constructor
          · intro hcontra
            injection hcontra with h1
            injection h1 with hA hB
            cases hB
          · intro hcontra
            cases hcontra
        · intro m1 hsucc
          injection hsucc with h1
          injection h1 with hA hB
          subst hA
          have hn1 : ({ m with south_walls := m.south_walls.set (p.x + m.width * p.y) false } : Maze).neighbor p Dir.South = some q := hn
          refine ⟨?_, ?_, ?_⟩
          · show (m.south_walls.set (p.x + m.width * p.y) false)[p.x + m.width * p.y]? = some false
            rw [List.getElem?_set_self', List.getElem?_eq_getElem hi]
            rfl
          · rw [passage_south_eq _ p q hn1]
            show ((m.south_walls.set (p.x + m.width * p.y) false)[p.x + m.width * p.y]?).map (fun b => !b) = some true
            rw [List.getElem?_set_self', List.getElem?_eq_getElem hi]
            rfl
          · rw [carve_south_eq _ p q hn1]
            show (if p.x + m.width * p.y < (m.south_walls.set (p.x + m.width * p.y) false).length then _ else none) = _
            simp [hi, List.set_set]
      · rw [if_neg hi]
        constructor
        · constructor
          · intro hcontra
            cases hcontra
          · intro hcontra
            cases hcontra
        · intro m1 hsucc
          cases hsucc
    case East =>
      rw [carve_east_eq m p q hn]
      by_cases hi : p.x + (m.width - 1) * p.y < m.east_walls.length
      · rw [if_pos hi]
        constructor
        · constructor
          · intro hcontra
            injection hcontra with h1
            injection h1 with hA hB
            cases hB
          · intro hcontra
            cases hcontra
        · intro m1 hsucc
          injection hsucc with h1
          injection h1 with hA hB
          subst hA
          have hn1 : ({ m with east_walls := m.east_walls.set (p.x + (m.width - 1) * p.y) false } : Maze).neighbor p Dir.East = some q := hn
          refine ⟨?_, ?_, ?_⟩
          · show (m.east_walls.set (p.x + (m.width - 1) * p.y) false)[p.x + (m.width - 1) * p.y]? = some false
            rw [List.getElem?_set_self', List.getElem?_eq_getElem hi]
            rfl
          · rw [passage_east_eq _ p q hn1]
            show ((m.east_walls.set (p.x + (m.width - 1) * p.y) false)[p.x + (m.width - 1) * p.y]?).map (fun b => !b) = some true
            rw [List.getElem?_set_self', List.getElem?_eq_getElem hi]
            rfl
          · rw [carve_east_eq _ p q hn1]
            show (if p.x + (m.width - 1) * p.y < (m.east_walls.set (p.x + (m.width - 1) * p.y) false).length then _ else none) = _
            simp [hi, List.set_set]
      · rw [if_neg hi]
        constructor
        · constructor
          · intro hcontra
            cases hcontra
          · intro hcontra
            cases hcontra
        · intro m1 hsucc
          cases hsucc
    case West =>
      rw [carve_west_eq m p q hn]
      by_cases hi : p.x - 1 + (m.width - 1) * p.y < m.east_walls.length
      · rw [if_pos hi]
        constructor
        · constructor
          · intro hcontra
            injection hcontra with h1
            injection h1 with hA hB
            cases hB
          · intro hcontra
            cases hcontra
        · intro m1 hsucc
          injection hsucc with h1
          injection h1 with hA hB
          subst hA
          have hn1 : ({ m with east_walls := m.east_walls.set (p.x - 1 + (m.width - 1) * p.y) false } : Maze).neighbor p Dir.West = some q := hn
          refine ⟨?_, ?_, ?_⟩
          · show (m.east_walls.set (p.x - 1 + (m.width - 1) * p.y) false)[p.x - 1 + (m.width - 1) * p.y]? = some false
            rw [List.getElem?_set_self', List.getElem?_eq_getElem hi]
            rfl
          · rw [passage_west_eq _ p q hn1]
            show ((m.east_walls.set (p.x - 1 + (m.width - 1) * p.y) false)[p.x - 1 + (m.width - 1) * p.y]?).map (fun b => !b) = some true
            rw [List.getElem?_set_self', List.getElem?_eq_getElem hi]
            rfl
          · rw [carve_west_eq _ p q hn1]
            show (if p.x - 1 + (m.width - 1) * p.y < (m.east_walls.set (p.x - 1 + (m.width - 1) * p.y) false).length then _ else none) = _
            simp [hi, List.set_set]
      · rw [if_neg hi]
        constructor
        · constructor
          · intro hcontra
            cases hcontra
          · intro hcontra
            cases hcontra
        · intro m1 hsucc
          cases hsucc

/-- Claim C4 witness: a concrete successful carve on a fresh 2×2 grid opens
the passage. -/
theorem claim_C4_carve_witness :
    sample22.carve ⟨0, 0⟩ Dir.South =
        some (⟨2, 2, List.replicate 2 true, [false, true]⟩, Except.ok ()) ∧
      (⟨2, 2, List.replicate 2 true, [false, true]⟩ : Maze).passage ⟨0, 0⟩ Dir.South = some true :=
  ⟨rfl, ((claim_C4_carve sample22 ⟨0, 0⟩ Dir.South).2 _ rfl).2.1⟩

/-- Claim C10: a successful carve changes nothing except the single wall flag
it addresses — dimensions, the other wall array, and every other slot of the
addressed array are unchanged — and a carve that fails with `BoundsError`
leaves the whole grid unchanged. -/
theorem claim_C10_frame (m : Maze) (p : Point) (d : Dir) :
    (∀ m1 e, m.carve p d = some (m1, Except.error e) → m1 = m) ∧
    (∀ m1, m.carve p d = some (m1, Except.ok ()) →
      m1.width = m.width ∧ m1.height = m.height ∧
      (usesSouthArray d = true →
        m1.east_walls = m.east_walls ∧
        m1.south_walls.length = m.south_walls.length ∧
        ∀ j, j ≠ carveIdx m p d → m1.south_walls[j]? = m.south_walls[j]?) ∧
      (usesSouthArray d = false →
        m1.south_walls = m.south_walls ∧
        m1.east_walls.length = m.east_walls.length ∧
        ∀ j, j ≠ carveIdx m p d → m1.east_walls[j]? = m.east_walls[j]?)) := by
  rcases hn : m.neighbor p d with _ | q
  · rw [carve_eq_of_neighbor_none m p d hn]
    constructor
    · intro m1 e hcontra
      injection hcontra with h1
      injection h1 with hA hB
      exact hA.symm
    · intro m1 hsucc
      injection hsucc with h1
      injection h1 with hA hB
      cases hB
  · cases d
    case North =>
      rw [carve_north_eq m p q hn]
      by_cases hi : p.x + m.width * (p.y - 1) < m.south_walls.length
      · rw [if_pos hi]
        constructor
        · intro m1 e hcontra
          injection hcontra with h1
          injection h1 with hA hB
          cases hB
        · intro m1 hsucc
          injection hsucc with h1
          injection h1 with hA hB
          subst hA
          refine ⟨rfl, rfl, ?_, ?_⟩
          · intro _
            refine ⟨rfl, List.length_set .., ?_⟩
            intro j hj
            exact List.getElem?_set_ne (Ne.symm hj)
          · intro hfalse
            exact Bool.noConfusion hfalse
      · rw [if_neg hi]
        constructor
        · intro m1 e hcontra
          cases hcontra
        · intro m1 hsucc
          cases hsucc
    case South =>
      rw [carve_south_eq m p q hn]
      by_cases hi : p.x + m.width * p.y < m.south_walls.length
      · rw [if_pos hi]
        constructor
        · intro m1 e hcontra
          injection hcontra with h1
          injection h1 with hA hB
          cases hB
        · intro m1 hsucc
          injection hsucc with h1
          injection h1 with hA hB
          subst hA
          refine ⟨rfl, rfl, ?_, ?_⟩
          · intro _
            refine ⟨rfl, List.length_set .., ?_⟩
            intro j hj
            exact List.getElem?_set_ne (Ne.symm hj)
          · intro hfalse
            exact Bool.noConfusion hfalse
      · rw [if_neg hi]
        constructor
        · intro m1 e hcontra
          cases hcontra
        · intro m1 hsucc
          cases hsucc
    case East =>
      rw [carve_east_eq m p q hn]
      by_cases hi : p.x + (m.width - 1) * p.y < m.east_walls.length
      · rw [if_pos hi]
        constructor
        · intro m1 e hcontra
          injection hcontra with h1
          injection h1 with hA hB
          cases hB
        · intro m1 hsucc
          injection hsucc with h1
          injection h1 with hA hB
          subst hA
          refine ⟨rfl, rfl, ?_, ?_⟩
          · intro htrue
            exact Bool.noConfusion htrue
          · intro _
            refine ⟨rfl, List.length_set .., ?_⟩
            intro j hj
            exact List.getElem?_set_ne (Ne.symm hj)
      · rw [if_neg hi]
        constructor
        · intro m1 e hcontra
          cases hcontra
        · intro m1 hsucc
          cases hsucc
    case West =>
      rw [carve_west_eq m p q hn]
      by_cases hi : p.x - 1 + (m.width - 1) * p.y < m.east_walls.length
      · rw [if_pos hi]
        constructor
        · intro m1 e hcontra
          injection hcontra with h1
          injection h1 with hA hB
          cases hB
        · intro m1 hsucc
          injection hsucc with h1
          injection h1 with hA hB
          subst hA
          refine ⟨rfl, rfl, ?_, ?_⟩
          · intro htrue
            exact Bool.noConfusion htrue
          · intro _
            refine ⟨rfl, List.length_set .., ?_⟩
            intro j hj
            exact List.getElem?_set_ne (Ne.symm hj)
      · rw [if_neg hi]
        constructor
        · intro m1 e hcontra
          cases hcontra
        · intro m1 hsucc
          cases hsucc

/-- Claim C10 witness: a concrete successful carve on a fresh 2×2 grid
leaves the other array and another slot untouched. -/
theorem claim_C10_frame_witness :
    (⟨2, 2, List.replicate 2 true, [false, true]⟩ : Maze).width = sample22.width ∧
      (⟨2, 2, List.replicate 2 true, [false, true]⟩ : Maze).east_walls = sample22.east_walls ∧
      (⟨2, 2, List.replicate 2 true, [false, true]⟩ : Maze).south_walls[1]? = sample22.south_walls[1]? :=
  ⟨((claim_C10_frame sample22 ⟨0, 0⟩ Dir.South).2 _ rfl).1,
    (((claim_C10_frame sample22 ⟨0, 0⟩ Dir.South).2 _ rfl).2.2.1 rfl).1,
    (((claim_C10_frame sample22 ⟨0, 0⟩ Dir.South).2 _ rfl).2.2.1 rfl).2.2 1 (by decide)⟩

/-- Evaluating `nth_point` at an in-range index yields the row-major coordinate. -/
theorem nth_point_of_lt (m : Maze) (hw : 0 < m.width) (n : Nat)
    (hn : n < m.width * m.height) :
    m.nth_point n = some ⟨n % m.width, n / m.width⟩ ∧
      m.valid ⟨n % m.width, n / m.width⟩ = true := by
  have hvalid : m.valid ⟨n % m.width, n / m.width⟩ = true := by
    rw [valid_iff]
    refine ⟨Nat.mod_lt _ hw, ?_⟩
    rw [Nat.div_lt_iff_lt_mul hw, Nat.mul_comm]
    exact hn
  refine ⟨?_, hvalid⟩
  show (if m.valid ⟨n % m.width, n / m.width⟩ = true
      then some (⟨n % m.width, n / m.width⟩ : Point) else none) = _
  rw [if_pos hvalid]

/-- Evaluating `nth_point` at an out-of-range index yields nothing. -/
theorem nth_point_of_ge (m : Maze) (hw : 0 < m.width) (n : Nat)
    (hn : m.width * m.height ≤ n) : m.nth_point n = none := by
  have hy : ¬ (n / m.width < m.height) := by
    rw [not_lt, Nat.le_div_iff_mul_le hw, Nat.mul_comm]
    exact hn
  show (if m.valid ⟨n % m.width, n / m.width⟩ = true
      then some (⟨n % m.width, n / m.width⟩ : Point) else none) = none
  rw [if_neg]
  intro hc
  rw [valid_iff] at hc
  exact hy hc.2

/-- Any coordinate produced by `nth_point` is the row-major one. -/
theorem nth_point_some (m : Maze) (n : Nat) (p : Point)
    (h : m.nth_point n = some p) :
    p.x = n % m.width ∧ p.y = n / m.width := by
  have h2 : (if m.valid ⟨n % m.width, n / m.width⟩ = true
      then some (⟨n % m.width, n / m.width⟩ : Point) else none) = some p := h
  by_cases hv : m.valid ⟨n % m.width, n / m.width⟩ = true
  · rw [if_pos hv] at h2
    cases h2
    exact ⟨rfl, rfl⟩
  · rw [if_neg hv] at h2
    cases h2

/-- The iterator state after `k` steps just advances the cursor. -/
theorem stepN_iter (m : Maze) (j k : Nat) :
    MazeIterator.stepN ⟨m, j⟩ k = ⟨m, j + k⟩ := by
  induction k generalizing j with
  | zero => rfl
  | succ k ih =>
    show MazeIterator.stepN ⟨m, j + 1⟩ k = _
    rw [ih]
    congr 1
    omega

/-- The `(k+1)`-st `next` of a fresh iterator emits `nth_point k`. -/
theorem outputAt_eq (m : Maze) (k : Nat) :
    m.iter.outputAt k = m.nth_point k := by
  unfold MazeIterator.outputAt Maze.iter
  rw [stepN_iter]
  show m.nth_point (0 + k) = m.nth_point k
  rw [Nat.zero_add]

/-- Claim C6: the iteration sequence emits `nth_point 0, 1, 2, …`; for
`n < width*height` this is the row-major coordinate `(n mod width,
n div width)`, valid, and distinct indices give distinct coordinates; for
`n ≥ width*height` (and only then) `nth_point` yields nothing, so exactly
`width*height` coordinates are produced. -/
theorem claim_C6_iteration (m : Maze) (hw : 0 < m.width) (_hh : 0 < m.height) :
    (∀ k, m.iter.outputAt k = m.nth_point k) ∧
    (∀ n, n < m.width * m.height →
      m.nth_point n = some ⟨n % m.width, n / m.width⟩ ∧
      m.valid ⟨n % m.width, n / m.width⟩ = true) ∧
    (∀ n, m.nth_point n = none ↔ m.width * m.height ≤ n) ∧
    (∀ n1 n2 p, m.nth_point n1 = some p → m.nth_point n2 = some p → n1 = n2) := by
  refine ⟨outputAt_eq m, nth_point_of_lt m hw, ?_, ?_⟩
  · intro n
    constructor
    · intro h0
      by_contra hlt
      push_neg at hlt
      rw [(nth_point_of_lt m hw n hlt).1] at h0
      cases h0
    · exact nth_point_of_ge m hw n
  · intro n1 n2 p h1 h2
    obtain ⟨hx1, hy1⟩ := nth_point_some m n1 p h1
    obtain ⟨hx2, hy2⟩ := nth_point_some m n2 p h2
    calc n1 = m.width * (n1 / m.width) + n1 % m.width :=
          (Nat.div_add_mod n1 m.width).symm
      _ = m.width * (n2 / m.width) + n2 % m.width := by
          rw [← hy1, ← hx1, hy2, hx2]
      _ = n2 := Nat.div_add_mod n2 m.width

/-- Claim C6 witness on a concrete 2×2 grid. -/
theorem claim_C6_iteration_witness :
    0 < sample22.width ∧ 0 < sample22.height ∧
      sample22.iter.outputAt 2 = sample22.nth_point 2 ∧
      (sample22.nth_point 4 = none ↔ sample22.width * sample22.height ≤ 4) :=
  ⟨by decide, by decide,
    (claim_C6_iteration sample22 (by decide) (by decide)).1 2,
    (claim_C6_iteration sample22 (by decide) (by decide)).2.2.1 4⟩

/-- For a valid coordinate, a north neighbor exists exactly when `0 < y`. -/
theorem neighbor_north_isSome (m : Maze) (p : Point) (hv : m.valid p = true) :
    (m.neighbor p Dir.North).isSome = hasNorthNbr p := by
  rcases p with ⟨px, py⟩
  have hv2 : px < m.width ∧ py < m.height := (valid_iff m _).mp hv
  rw [neighbor_north]
  by_cases hy : 0 < py
  · rw [if_pos ⟨hy, (valid_iff m _).mpr ⟨hv2.1, show py - 1 < m.height by omega⟩⟩]
    simp [hasNorthNbr, hy]
  · rw [if_neg (fun hc => hy hc.1)]
    simp [hasNorthNbr, hy]

/-- For a valid coordinate, an east neighbor exists exactly when
`x + 1 < width`. -/
theorem neighbor_east_isSome (m : Maze) (p : Point) (hv : m.valid p = true) :
    (m.neighbor p Dir.East).isSome = hasEastNbr m.width p := by
  rcases p with ⟨px, py⟩
  have hv2 : px < m.width ∧ py < m.height := (valid_iff m _).mp hv
  rw [neighbor_east]
  by_cases hx : px + 1 < m.width
  · rw [if_pos ((valid_iff m _).mpr ⟨hx, hv2.2⟩)]
    simp [hasEastNbr, hx]
  · rw [if_neg (fun hc => hx (show px + 1 < m.width from ((valid_iff m _).mp hc).1))]
    simp [hasEastNbr, hx]

theorem neighbor_north_some (m : Maze) (p : Point) (hv : m.valid p = true)
    (hy : 0 < p.y) : m.neighbor p Dir.North = some ⟨p.x, p.y - 1⟩ := by
  rcases p with ⟨px, py⟩
  have hv2 : px < m.width ∧ py < m.height := (valid_iff m _).mp hv
  have hy2 : 0 < py := hy
  rw [neighbor_north]
  exact if_pos ⟨hy2, (valid_iff m _).mpr ⟨hv2.1, show py - 1 < m.height by omega⟩⟩

theorem neighbor_east_some (m : Maze) (p : Point) (hv : m.valid p = true)
    (hx : p.x + 1 < m.width) : m.neighbor p Dir.East = some ⟨p.x + 1, p.y⟩ := by
  rcases p with ⟨px, py⟩
  have hv2 : px < m.width ∧ py < m.height := (valid_iff m _).mp hv
  have hx2 : px + 1 < m.width := hx
  rw [neighbor_east]
  exact if_pos ((valid_iff m _).mpr ⟨hx2, hv2.2⟩)

theorem neighbor_south_some (m : Maze) (p : Point) (hx : p.x < m.width)
    (hy : p.y + 1 < m.height) : m.neighbor p Dir.South = some ⟨p.x, p.y + 1⟩ := by
  rcases p with ⟨px, py⟩
  have hx2 : px < m.width := hx
  have hy2 : py + 1 < m.height := hy
  rw [neighbor_south]
  exact if_pos ((valid_iff m _).mpr ⟨hx2, hy2⟩)

theorem neighbor_south_none (m : Maze) (p : Point)
    (hy : ¬ (p.y + 1 < m.height)) : m.neighbor p Dir.South = none := by
  rcases p with ⟨px, py⟩
  have hy2 : ¬ (py + 1 < m.height) := hy
  rw [neighbor_south]
  exact if_neg (fun hc => hy2 (show py + 1 < m.height from ((valid_iff m _).mp hc).2))

theorem neighbor_west_some (m : Maze) (p : Point) (hx : 0 < p.x)
    (hx2 : p.x - 1 < m.width) (hy : p.y < m.height) :
    m.neighbor p Dir.West = some ⟨p.x - 1, p.y⟩ := by
  rcases p with ⟨px, py⟩
  have ha : 0 < px := hx
  have hb : px - 1 < m.width := hx2
  have hc : py < m.height := hy
  rw [neighbor_west]
  exact if_pos ⟨ha, (valid_iff m _).mpr ⟨hb, hc⟩⟩

theorem neighbor_west_none (m : Maze) (p : Point) (hx : p.x = 0) :
    m.neighbor p Dir.West = none := by
  rcases p with ⟨px, py⟩
  have ha : px = 0 := hx
  rw [neighbor_west]
  exact if_neg (fun hc => absurd (show 0 < px from hc.1) (by omega))

/-- Structure extensionality for mazes. -/
theorem mazeExt (m1 m2 : Maze) (h1 : m1.width = m2.width)
    (h2 : m1.height = m2.height) (h3 : m1.east_walls = m2.east_walls)
    (h4 : m1.south_walls = m2.south_walls) : m1 = m2 := by
  cases m1
  cases m2
  simp only at h1 h2 h3 h4
  subst h1
  subst h2
  subst h3
  subst h4
  rfl

/-- Row-major indices determine the coordinate uniquely. -/
theorem cellIndex_inj (w : Nat) (p p' : Point) (hp : p.x < w) (hp' : p'.x < w)
    (h : cellIndex w p = cellIndex w p') : p = p' := by
  rcases p with ⟨x, y⟩
  rcases p' with ⟨x', y'⟩
  simp only [cellIndex] at h
  have hx : x = x' := by
    have e1 : (x + w * y) % w = x % w := by
      rw [Nat.mul_comm]
      exact Nat.add_mul_mod_self_right x y w
    have e2 : (x' + w * y') % w = x' % w := by
      rw [Nat.mul_comm]
      exact Nat.add_mul_mod_self_right x' y' w
    rw [Nat.mod_eq_of_lt hp] at e1
    rw [Nat.mod_eq_of_lt hp'] at e2
    rw [h] at e1
    rw [e2] at e1
    exact e1.symm
  have hy : y = y' := by
    have hw : 0 < w := by omega
    have e1 : (x + w * y) / w = y := by
      rw [Nat.add_mul_div_left _ _ hw, Nat.div_eq_of_lt hp, Nat.zero_add]
    have e2 : (x' + w * y') / w = y' := by
      rw [Nat.add_mul_div_left _ _ hw, Nat.div_eq_of_lt hp', Nat.zero_add]
    rw [h, e2] at e1
    exact e1.symm
  rw [hx, hy]

/-- The cell owning south-wall slot `j` has linear index `j + w`. -/
theorem southOwner_cellIndex (w j : Nat) :
    cellIndex w (southOwner w j) = j + w := by
  show j % w + w * (j / w + 1) = j + w
  rw [Nat.mul_succ, ← Nat.add_assoc, Nat.mod_add_div]

theorem mazeAfter_width (w h : Nat) (flips : Nat → Bool) (k : Nat) :
    (mazeAfter w h flips k).width = w := rfl

theorem mazeAfter_height (w h : Nat) (flips : Nat → Bool) (k : Nat) :
    (mazeAfter w h flips k).height = h := rfl

theorem mazeAfter_south_length (w h : Nat) (flips : Nat → Bool) (k : Nat) :
    (mazeAfter w h flips k).south_walls.length = w * (h - 1) := by
  show ((List.range (w * (h - 1))).map _).length = _
  rw [List.length_map, List.length_range]

theorem mazeAfter_east_length (w h : Nat) (flips : Nat → Bool) (k : Nat) :
    (mazeAfter w h flips k).east_walls.length = h * (w - 1) := by
  show ((List.range (h * (w - 1))).map _).length = _
  rw [List.length_map, List.length_range]

/-- Lookup of an in-range south-wall slot of the closed form. -/
theorem mazeAfter_south_get (w h : Nat) (flips : Nat → Bool) (k j : Nat)
    (hj : j < w * (h - 1)) :
    (mazeAfter w h flips k).south_walls[j]? =
      some (!(carvesNorth w flips (southOwner w j) && decide (j + w < k))) := by
  show ((List.range (w * (h - 1))).map _)[j]? = _
  rw [List.getElem?_map, List.getElem?_range hj]
  rw [Option.map_some']
  rw [southOwner_cellIndex]

/-- Lookup of an in-range east-wall slot of the closed form. -/
theorem mazeAfter_east_get (w h : Nat) (flips : Nat → Bool) (k j : Nat)
    (hj : j < h * (w - 1)) :
    (mazeAfter w h flips k).east_walls[j]? =
      some (!(carvesEast w flips (eastOwner w j) &&
        decide (cellIndex w (eastOwner w j) < k))) := by
  show ((List.range (h * (w - 1))).map _)[j]? = _
  rw [List.getElem?_map, List.getElem?_range hj]
  rw [Option.map_some']

theorem south_slot_lt (w h x y : Nat) (hx : x < w) (hy1 : 0 < y) (hy2 : y < h) :
    x + w * (y - 1) < w * (h - 1) := by
  have h1 : y - 1 ≤ h - 2 := by omega
  have h2 : w * (y - 1) ≤ w * (h - 2) := Nat.mul_le_mul_left w h1
  have h3 : w * (h - 2) + w = w * (h - 1) := by
    rw [← Nat.mul_succ]
    congr 1
    omega
  omega

theorem east_slot_lt (w h x y : Nat) (hx : x < w - 1) (hy : y < h) :
    x + (w - 1) * y < h * (w - 1) := by
  have h2 : (w - 1) * (y + 1) = (w - 1) * y + (w - 1) := Nat.mul_succ _ _
  have h3 : (w - 1) * (y + 1) ≤ (w - 1) * h := Nat.mul_le_mul_left _ (by omega)
  have h4 : (w - 1) * h = h * (w - 1) := Nat.mul_comm _ _
  omega

/-- Processing a cell that does not carve east leaves the east array of the
closed form unchanged. -/
theorem mazeAfter_east_unchanged (w h : Nat) (flips : Nat → Bool) (k : Nat)
    (pt : Point) (hptx : pt.x < w) (hk : cellIndex w pt = k)
    (hE : carvesEast w flips pt = false) :
    (mazeAfter w h flips (k + 1)).east_walls = (mazeAfter w h flips k).east_walls := by
  apply List.ext_getElem?
  intro j
  by_cases hj : j < h * (w - 1)
  · rw [mazeAfter_east_get w h flips (k + 1) j hj,
      mazeAfter_east_get w h flips k j hj]
    cases hcb : carvesEast w flips (eastOwner w j) with
    | false => rfl
    | true =>
      have hw1 : 0 < w - 1 := by
        by_contra hc
        have : h * (w - 1) = 0 := by
          have : w - 1 = 0 := by omega
          rw [this, Nat.mul_zero]
        omega
      have hxo : (eastOwner w j).x < w - 1 := Nat.mod_lt _ hw1
      have hne : cellIndex w (eastOwner w j) ≠ k := by
        intro hceq
        have : eastOwner w j = pt :=
          cellIndex_inj w _ _ (by omega) hptx (hceq.trans hk.symm)
        rw [this] at hcb
        rw [hcb] at hE
        cases hE
      have : decide (cellIndex w (eastOwner w j) < k + 1) =
          decide (cellIndex w (eastOwner w j) < k) :=
        decide_eq_decide.mpr (by omega)
      rw [this]
  · rw [List.getElem?_eq_none (by rw [mazeAfter_east_length]; omega),
      List.getElem?_eq_none (by rw [mazeAfter_east_length]; omega)]

/-- Processing a cell that does not carve north leaves the south array of
the closed form unchanged. -/
theorem mazeAfter_south_unchanged (w h : Nat) (flips : Nat → Bool) (k : Nat)
    (pt : Point) (hw : 0 < w) (hptx : pt.x < w) (hk : cellIndex w pt = k)
    (hN : carvesNorth w flips pt = false) :
    (mazeAfter w h flips (k + 1)).south_walls = (mazeAfter w h flips k).south_walls := by
  apply List.ext_getElem?
  intro j
  by_cases hj : j < w * (h - 1)
  · rw [mazeAfter_south_get w h flips (k + 1) j hj,
      mazeAfter_south_get w h flips k j hj]
    cases hcb : carvesNorth w flips (southOwner w j) with
    | false => rfl
    | true =>
      have hne : j + w ≠ k := by
        intro hceq
        have hci : cellIndex w (southOwner w j) = cellIndex w pt := by
          rw [southOwner_cellIndex, hceq, hk]
        have hxo : (southOwner w j).x < w := Nat.mod_lt _ hw
        have : southOwner w j = pt := cellIndex_inj w _ _ hxo hptx hci
        rw [this] at hcb
        rw [hcb] at hN
        cases hN
      have : decide (j + w < k + 1) = decide (j + w < k) :=
        decide_eq_decide.mpr (by omega)
      rw [this]
  · rw [List.getElem?_eq_none (by rw [mazeAfter_south_length]; omega),
      List.getElem?_eq_none (by rw [mazeAfter_south_length]; omega)]

/-- Processing a cell that carves north clears exactly its north wall slot in
the closed form. -/
theorem mazeAfter_south_set (w h : Nat) (flips : Nat → Bool) (k : Nat)
    (pt : Point) (hw : 0 < w) (hptx : pt.x < w) (hpty : pt.y < h)
    (hy : 0 < pt.y) (hk : cellIndex w pt = k)
    (hN : carvesNorth w flips pt = true) :
    (mazeAfter w h flips k).south_walls.set (pt.x + w * (pt.y - 1)) false =
      (mazeAfter w h flips (k + 1)).south_walls := by
  have hmul : w * (pt.y - 1) + w = w * pt.y := by
    rw [← Nat.mul_succ]
    congr 1
    omega
  have hiw : pt.x + w * (pt.y - 1) + w = k := by
    have : cellIndex w pt = pt.x + w * pt.y := rfl
    omega
  have hi : pt.x + w * (pt.y - 1) < w * (h - 1) :=
    south_slot_lt w h pt.x pt.y hptx hy hpty
  apply List.ext_getElem?
  intro j
  by_cases hj : j < w * (h - 1)
  · by_cases hji : j = pt.x + w * (pt.y - 1)
    · subst hji
      rw [List.getElem?_set_self', mazeAfter_south_get w h flips k _ hj,
        mazeAfter_south_get w h flips (k + 1) _ hj]
      have howner : southOwner w (pt.x + w * (pt.y - 1)) = pt := by
        apply cellIndex_inj w _ _ (Nat.mod_lt _ hw) hptx
        rw [southOwner_cellIndex]
        omega
      rw [howner, hN]
      have : decide (pt.x + w * (pt.y - 1) + w < k + 1) = true :=
        decide_eq_true (by omega)
      rw [this]
      rfl
    · rw [List.getElem?_set_ne (fun hc => hji hc.symm),
        mazeAfter_south_get w h flips k _ hj,
        mazeAfter_south_get w h flips (k + 1) _ hj]
      cases hcb : carvesNorth w flips (southOwner w j) with
      | false => rfl
      | true =>
        have : decide (j + w < k + 1) = decide (j + w < k) :=
          decide_eq_decide.mpr (by omega)
        rw [this]
  · rw [List.getElem?_set_ne (by omega),
      List.getElem?_eq_none (by rw [mazeAfter_south_length]; omega),
      List.getElem?_eq_none (by rw [mazeAfter_south_length]; omega)]

/-- Processing a cell that carves east clears exactly its east wall slot in
the closed form. -/
theorem mazeAfter_east_set (w h : Nat) (flips : Nat → Bool) (k : Nat)
    (pt : Point) (hx : pt.x + 1 < w) (hpty : pt.y < h)
    (hk : cellIndex w pt = k)
    (hE : carvesEast w flips pt = true) :
    (mazeAfter w h flips k).east_walls.set (pt.x + (w - 1) * pt.y) false =
      (mazeAfter w h flips (k + 1)).east_walls := by
  have hw1 : 0 < w - 1 := by omega
  have hxlt : pt.x < w - 1 := by omega
  have hi : pt.x + (w - 1) * pt.y < h * (w - 1) :=
    east_slot_lt w h pt.x pt.y hxlt hpty
  have howner : eastOwner w (pt.x + (w - 1) * pt.y) = pt := by
    unfold eastOwner
    have hmod : (pt.x + (w - 1) * pt.y) % (w - 1) = pt.x := by
      rw [Nat.mul_comm, Nat.add_mul_mod_self_right, Nat.mod_eq_of_lt hxlt]
    have hdiv : (pt.x + (w - 1) * pt.y) / (w - 1) = pt.y := by
      rw [Nat.add_mul_div_left _ _ hw1, Nat.div_eq_of_lt hxlt, Nat.zero_add]
    rw [hmod, hdiv]
  apply List.ext_getElem?
  intro j
  by_cases hj : j < h * (w - 1)
  · by_cases hji : j = pt.x + (w - 1) * pt.y
    · subst hji
      rw [List.getElem?_set_self', mazeAfter_east_get w h flips k _ hj,
        mazeAfter_east_get w h flips (k + 1) _ hj]
      rw [howner, hE, hk]
      have : decide (k < k + 1) = true := decide_eq_true (by omega)
      rw [this]
      rfl
    · rw [List.getElem?_set_ne (fun hc => hji hc.symm),
        mazeAfter_east_get w h flips k _ hj,
        mazeAfter_east_get w h flips (k + 1) _ hj]
      cases hcb : carvesEast w flips (eastOwner w j) with
      | false => rfl
      | true =>
        have hne : cellIndex w (eastOwner w j) ≠ k := by
          intro hceq
          have hxo : (eastOwner w j).x < w - 1 := Nat.mod_lt _ hw1
          have heq : eastOwner w j = pt :=
            cellIndex_inj w _ _ (by omega) (by omega) (hceq.trans hk.symm)
          apply hji
          have hjrec : (w - 1) * (j / (w - 1)) + j % (w - 1) = j :=
            Nat.div_add_mod j (w - 1)
          have hx2 : j % (w - 1) = pt.x := congrArg Point.x heq
          have hy2 : j / (w - 1) = pt.y := congrArg Point.y heq
          rw [hx2, hy2] at hjrec
          omega
        have : decide (cellIndex w (eastOwner w j) < k + 1) =
            decide (cellIndex w (eastOwner w j) < k) :=
          decide_eq_decide.mpr (by omega)
        rw [this]
  · rw [List.getElem?_set_ne (by omega),
      List.getElem?_eq_none (by rw [mazeAfter_east_length]; omega),
      List.getElem?_eq_none (by rw [mazeAfter_east_length]; omega)]

/-- Unfolding of `btStep` when the linear index maps to a cell. -/
theorem btStep_some_eq (flips : Nat → Bool) (mz : Maze) (i : Nat) (pt : Point)
    (hpt : mz.nth_point i = some pt) :
    Maze.btStep flips mz i =
      (if (mz.neighbor pt Dir.North).isSome && !(mz.neighbor pt Dir.East).isSome then
        match mz.carve pt Dir.North with
        | some (m1, Except.ok _) => some m1
        | _ => none
      else if (mz.neighbor pt Dir.East).isSome && !(mz.neighbor pt Dir.North).isSome then
        match mz.carve pt Dir.East with
        | some (m1, Except.ok _) => some m1
        | _ => none
      else if (mz.neighbor pt Dir.North).isSome && (mz.neighbor pt Dir.East).isSome then
        if flips i then
          match mz.carve pt Dir.North with
          | some (m1, Except.ok _) => some m1
          | _ => none
        else
          match mz.carve pt Dir.East with
          | some (m1, Except.ok _) => some m1
          | _ => none
      else some mz) := by
  unfold Maze.btStep
  rw [hpt]

/-- One generator step on the closed form advances it by one cell. -/
theorem btStep_mazeAfter (w h : Nat) (flips : Nat → Bool) (hw : 0 < w)
    (hh : 0 < h) (k : Nat) (hk : k < w * h) :
    Maze.btStep flips (mazeAfter w h flips k) k =
      some (mazeAfter w h flips (k + 1)) := by
  obtain ⟨hnp, hval⟩ := nth_point_of_lt (mazeAfter w h flips k) hw k hk
  rw [mazeAfter_width] at hnp hval
  have hptx : k % w < w := Nat.mod_lt _ hw
  have hpty : k / w < h := by
    rw [Nat.div_lt_iff_lt_mul hw, Nat.mul_comm]
    exact hk
  have hcell : cellIndex w ⟨k % w, k / w⟩ = k := by
    show k % w + w * (k / w) = k
    rw [Nat.mod_add_div]
  rw [btStep_some_eq flips _ k _ hnp]
  rw [neighbor_north_isSome _ _ hval, neighbor_east_isSome _ _ hval,
    mazeAfter_width]
  cases hbN : hasNorthNbr ⟨k % w, k / w⟩ <;> cases hbE : hasEastNbr w ⟨k % w, k / w⟩
  case false.false =>
    simp only [Bool.not_false, Bool.false_and, Bool.and_false, if_false]
    have hcN : carvesNorth w flips ⟨k % w, k / w⟩ = false := by
      unfold carvesNorth
      rw [hbN]
      simp
    have hcE : carvesEast w flips ⟨k % w, k / w⟩ = false := by
      unfold carvesEast
      rw [hbE]
      simp
    refine congrArg some
      (mazeExt (mazeAfter w h flips k) (mazeAfter w h flips (k + 1)) rfl rfl ?_ ?_)
    · exact (mazeAfter_east_unchanged w h flips k _ hptx hcell hcE).symm
    · exact (mazeAfter_south_unchanged w h flips k _ hw hptx hcell hcN).symm
  case true.false =>
    simp only [Bool.not_false, Bool.and_true, Bool.true_and, if_true]
    have hy : 0 < k / w := of_decide_eq_true hbN
    have hcN : carvesNorth w flips ⟨k % w, k / w⟩ = true := by
      unfold carvesNorth
      rw [hbN, hbE]
      simp
    have hcE : carvesEast w flips ⟨k % w, k / w⟩ = false := by
      unfold carvesEast
      rw [hbE]
      simp
    have hn1 : (mazeAfter w h flips k).neighbor ⟨k % w, k / w⟩ Dir.North =
        some ⟨k % w, k / w - 1⟩ := neighbor_north_some _ _ hval hy
    rw [carve_north_eq _ _ _ hn1]
    have hcond : (⟨k % w, k / w⟩ : Point).x +
        (mazeAfter w h flips k).width * ((⟨k % w, k / w⟩ : Point).y - 1) <
        (mazeAfter w h flips k).south_walls.length := by
      rw [mazeAfter_width, mazeAfter_south_length]
      exact south_slot_lt w h (k % w) (k / w) hptx hy hpty
    rw [if_pos hcond]
    refine congrArg some
      (mazeExt _ (mazeAfter w h flips (k + 1)) rfl rfl ?_ ?_)
    · exact (mazeAfter_east_unchanged w h flips k _ hptx hcell hcE).symm
    · exact mazeAfter_south_set w h flips k _ hw hptx hpty hy hcell hcN
  case false.true =>
    simp only [Bool.not_false, Bool.not_true, Bool.and_false, Bool.false_and,
      Bool.and_true, Bool.true_and, if_false, if_true]
    have hx : k % w + 1 < w := of_decide_eq_true hbE
    have hcN : carvesNorth w flips ⟨k % w, k / w⟩ = false := by
      unfold carvesNorth
      rw [hbN]
      simp
    have hcE : carvesEast w flips ⟨k % w, k / w⟩ = true := by
      unfold carvesEast
      rw [hbE, hbN]
      simp
    have hn1 : (mazeAfter w h flips k).neighbor ⟨k % w, k / w⟩ Dir.East =
        some ⟨k % w + 1, k / w⟩ := neighbor_east_some _ _ hval hx
    rw [carve_east_eq _ _ _ hn1]
    have hcond : (⟨k % w, k / w⟩ : Point).x +
        ((mazeAfter w h flips k).width - 1) * (⟨k % w, k / w⟩ : Point).y <
        (mazeAfter w h flips k).east_walls.length := by
      rw [mazeAfter_width, mazeAfter_east_length]
      exact east_slot_lt w h (k % w) (k / w) (by omega) hpty
    rw [if_pos hcond]
    refine congrArg some
      (mazeExt _ (mazeAfter w h flips (k + 1)) rfl rfl ?_ ?_)
    · exact mazeAfter_east_set w h flips k _ hx hpty hcell hcE
    · exact (mazeAfter_south_unchanged w h flips k _ hw hptx hcell hcN).symm
  case true.true =>
    simp only [Bool.not_true, Bool.and_false, Bool.and_true, Bool.true_and,
      if_false, if_true]
    have hy : 0 < k / w := of_decide_eq_true hbN
    have hx : k % w + 1 < w := of_decide_eq_true hbE
    cases hf : flips k
    case true =>
      have hcN : carvesNorth w flips ⟨k % w, k / w⟩ = true := by
        unfold carvesNorth
        rw [hbN, hbE, hcell, hf]
        simp
      have hcE : carvesEast w flips ⟨k % w, k / w⟩ = false := by
        unfold carvesEast
        rw [hbE, hbN, hcell, hf]
        simp
      have hn1 : (mazeAfter w h flips k).neighbor ⟨k % w, k / w⟩ Dir.North =
          some ⟨k % w, k / w - 1⟩ := neighbor_north_some _ _ hval hy
      rw [carve_north_eq _ _ _ hn1]
      have hcond : (⟨k % w, k / w⟩ : Point).x +
          (mazeAfter w h flips k).width * ((⟨k % w, k / w⟩ : Point).y - 1) <
          (mazeAfter w h flips k).south_walls.length := by
        rw [mazeAfter_width, mazeAfter_south_length]
        exact south_slot_lt w h (k % w) (k / w) hptx hy hpty
      rw [if_pos hcond]
      refine congrArg some
        (mazeExt _ (mazeAfter w h flips (k + 1)) rfl rfl ?_ ?_)
      · exact (mazeAfter_east_unchanged w h flips k _ hptx hcell hcE).symm
      · exact mazeAfter_south_set w h flips k _ hw hptx hpty hy hcell hcN
    case false =>
      have hcN : carvesNorth w flips ⟨k % w, k / w⟩ = false := by
        unfold carvesNorth
        rw [hbN, hbE, hcell, hf]
        simp
      have hcE : carvesEast w flips ⟨k % w, k / w⟩ = true := by
        unfold carvesEast
        rw [hbE, hbN, hcell, hf]
        simp
      have hn1 : (mazeAfter w h flips k).neighbor ⟨k % w, k / w⟩ Dir.East =
          some ⟨k % w + 1, k / w⟩ := neighbor_east_some _ _ hval hx
      rw [carve_east_eq _ _ _ hn1]
      have hcond : (⟨k % w, k / w⟩ : Point).x +
          ((mazeAfter w h flips k).width - 1) * (⟨k % w, k / w⟩ : Point).y <
          (mazeAfter w h flips k).east_walls.length := by
        rw [mazeAfter_width, mazeAfter_east_length]
        exact east_slot_lt w h (k % w) (k / w) (by omega) hpty
      rw [if_pos hcond]
      refine congrArg some
        (mazeExt _ (mazeAfter w h flips (k + 1)) rfl rfl ?_ ?_)
      · exact mazeAfter_east_set w h flips k _ hx hpty hcell hcE
      · exact (mazeAfter_south_unchanged w h flips k _ hw hptx hcell hcN).symm

/-- Before any cell has acted, the closed form is the fully closed grid. -/
theorem mazeAfter_zero (w h : Nat) (flips : Nat → Bool) :
    mazeAfter w h flips 0 =
      ⟨w, h, List.replicate (h * (w - 1)) true,
        List.replicate (w * (h - 1)) true⟩ := by
  refine mazeExt _ _ rfl rfl ?_ ?_
  · show (List.range (h * (w - 1))).map _ = _
    apply List.eq_replicate_iff.mpr
    refine ⟨by rw [List.length_map, List.length_range], ?_⟩
    intro b hb
    obtain ⟨j, -, rfl⟩ := List.mem_map.mp hb
    simp
  · show (List.range (w * (h - 1))).map _ = _
    apply List.eq_replicate_iff.mpr
    refine ⟨by rw [List.length_map, List.length_range], ?_⟩
    intro b hb
    obtain ⟨j, -, rfl⟩ := List.mem_map.mp hb
    simp

/-- A successful construction yields the fully closed grid. -/
theorem new_ok (w h : Nat) (m : Maze) (hm : Maze.new w h = Except.ok m) :
    0 < w ∧ 0 < h ∧
      m = ⟨w, h, List.replicate (h * (w - 1)) true,
        List.replicate (w * (h - 1)) true⟩ := by
  unfold Maze.new at hm
  by_cases hc : 0 < w ∧ 0 < h
  · rw [if_pos hc] at hm
    injection hm with hm1
    exact ⟨hc.1, hc.2, hm1.symm⟩
  · rw [if_neg hc] at hm
    cases hm

/-- The generator, run on the fully closed grid, produces the closed form at
`w * h`: every cell has acted exactly once. -/
theorem binary_tree_mazeAfter (w h : Nat) (flips : Nat → Bool)
    (hw : 0 < w) (hh : 0 < h) :
    Maze.binary_tree (mazeAfter w h flips 0) flips =
      some (mazeAfter w h flips (w * h)) := by
  unfold Maze.binary_tree
  show (List.range ((mazeAfter w h flips 0).width * (mazeAfter w h flips 0).height)).foldlM
      (fun mz i => Maze.btStep flips mz i) (mazeAfter w h flips 0) = _
  rw [mazeAfter_width, mazeAfter_height]
  suffices hgen : ∀ N, N ≤ w * h →
      (List.range N).foldlM (fun mz i => Maze.btStep flips mz i)
        (mazeAfter w h flips 0) = some (mazeAfter w h flips N) from
    hgen (w * h) le_rfl
  intro N
  induction N with
  | zero => intro _; rfl
  | succ N ih =>
    intro hN
    rw [List.range_succ, List.foldlM_append, ih (by omega)]
    show (some (mazeAfter w h flips N) >>=
      fun m2 => List.foldlM (fun mz i => Maze.btStep flips mz i) m2 [N]) = _
    rw [show (some (mazeAfter w h flips N) >>=
        fun m2 => List.foldlM (fun mz i => Maze.btStep flips mz i) m2 [N]) =
        List.foldlM (fun mz i => Maze.btStep flips mz i) (mazeAfter w h flips N) [N]
      from rfl]
    have hstep := btStep_mazeAfter w h flips hw hh N (by omega)
    simp [List.foldlM, hstep]

/-- A coordinate produced by `nth_point` is valid. -/
theorem nth_point_valid (m : Maze) (n : Nat) (p : Point)
    (h : m.nth_point n = some p) : m.valid p = true := by
  have h2 : (if m.valid ⟨n % m.width, n / m.width⟩ = true
      then some (⟨n % m.width, n / m.width⟩ : Point) else none) = some p := h
  by_cases hv : m.valid ⟨n % m.width, n / m.width⟩ = true
  · rw [if_pos hv] at h2
    cases h2
    exact hv
  · rw [if_neg hv] at h2
    cases h2

/-- On a well-formed maze, every generator step succeeds and preserves
dimensions and well-formedness: the carve guards and the carve's own
neighbor check agree, so the error branch is unreachable. -/
theorem btStep_isSome (flips : Nat → Bool) (mz : Maze) (i : Nat)
    (hWF : mz.WF) :
    ∃ mz', Maze.btStep flips mz i = some mz' ∧
      mz'.width = mz.width ∧ mz'.height = mz.height ∧ mz'.WF := by
  rcases hpt : mz.nth_point i with _ | pt
  · refine ⟨mz, ?_, rfl, rfl, hWF⟩
    unfold Maze.btStep
    rw [hpt]
  · have hval : mz.valid pt = true := nth_point_valid mz i pt hpt
    have hvx : pt.x < mz.width := ((valid_iff _ _).mp hval).1
    have hvy : pt.y < mz.height := ((valid_iff _ _).mp hval).2
    rw [btStep_some_eq flips mz i pt hpt]
    rw [neighbor_north_isSome _ _ hval, neighbor_east_isSome _ _ hval]
    cases hbN : hasNorthNbr pt <;> cases hbE : hasEastNbr mz.width pt
    case false.false =>
      simp only [Bool.not_false, Bool.false_and, Bool.and_false, if_false]
      exact ⟨mz, rfl, rfl, rfl, hWF⟩
    case true.false =>
      simp only [Bool.not_false, Bool.and_true, Bool.true_and, if_true]
      have hy : 0 < pt.y := of_decide_eq_true hbN
      have hn1 : mz.neighbor pt Dir.North = some ⟨pt.x, pt.y - 1⟩ :=
        neighbor_north_some _ _ hval hy
      rw [carve_north_eq _ _ _ hn1]
      have hcond : pt.x + mz.width * (pt.y - 1) < mz.south_walls.length := by
        rw [hWF.2]
        exact south_slot_lt mz.width mz.height pt.x pt.y hvx hy hvy
      rw [if_pos hcond]
      refine ⟨_, rfl, rfl, rfl, hWF.1, ?_⟩
      show (mz.south_walls.set _ false).length = _
      rw [List.length_set]
      exact hWF.2
    case false.true =>
      simp only [Bool.not_false, Bool.not_true, Bool.and_false, Bool.false_and,
        Bool.and_true, Bool.true_and, if_false, if_true]
      have hx : pt.x + 1 < mz.width := of_decide_eq_true hbE
      have hn1 : mz.neighbor pt Dir.East = some ⟨pt.x + 1, pt.y⟩ :=
        neighbor_east_some _ _ hval hx
      rw [carve_east_eq _ _ _ hn1]
      have hcond : pt.x + (mz.width - 1) * pt.y < mz.east_walls.length := by
        rw [hWF.1]
        exact east_slot_lt mz.width mz.height pt.x pt.y (by omega) hvy
      rw [if_pos hcond]
      refine ⟨_, rfl, rfl, rfl, ?_, hWF.2⟩
      show (mz.east_walls.set _ false).length = _
      rw [List.length_set]
      exact hWF.1
    case true.true =>
      simp only [Bool.not_true, Bool.and_false, Bool.and_true, Bool.true_and,
        if_false, if_true]
      have hy : 0 < pt.y := of_decide_eq_true hbN
      have hx : pt.x + 1 < mz.width := of_decide_eq_true hbE
      cases hf : flips i
      case true =>
        have hn1 : mz.neighbor pt Dir.North = some ⟨pt.x, pt.y - 1⟩ :=
          neighbor_north_some _ _ hval hy
        rw [carve_north_eq _ _ _ hn1]
        have hcond : pt.x + mz.width * (pt.y - 1) < mz.south_walls.length := by
          rw [hWF.2]
          exact south_slot_lt mz.width mz.height pt.x pt.y hvx hy hvy
        rw [if_pos hcond]
        refine ⟨_, rfl, rfl, rfl, hWF.1, ?_⟩
        show (mz.south_walls.set _ false).length = _
        rw [List.length_set]
        exact hWF.2
      case false =>
        have hn1 : mz.neighbor pt Dir.East = some ⟨pt.x + 1, pt.y⟩ :=
          neighbor_east_some _ _ hval hx
        rw [carve_east_eq _ _ _ hn1]
        have hcond : pt.x + (mz.width - 1) * pt.y < mz.east_walls.length := by
          rw [hWF.1]
          exact east_slot_lt mz.width mz.height pt.x pt.y (by omega) hvy
        rw [if_pos hcond]
        refine ⟨_, rfl, rfl, rfl, ?_, hWF.2⟩
        show (mz.east_walls.set _ false).length = _
        rw [List.length_set]
        exact hWF.1

/-- Folding generator steps over any index list keeps succeeding on a
well-formed maze. -/
theorem foldlM_btStep_isSome (flips : Nat → Bool) :
    ∀ (l : List Nat) (mz : Maze), mz.WF →
      ∃ r, l.foldlM (fun z i => Maze.btStep flips z i) mz = some r ∧ r.WF := by
  intro l
  induction l with
  | nil => exact fun mz h => ⟨mz, rfl, h⟩
  | cons i l ih =>
    intro mz h
    obtain ⟨mz', hstep, -, -, hWF'⟩ := btStep_isSome flips mz i h
    obtain ⟨r, hrest, hr⟩ := ih mz' hWF'
    refine ⟨r, ?_, hr⟩
    show (Maze.btStep flips mz i >>= fun z =>
      l.foldlM (fun z i => Maze.btStep flips z i) z) = some r
    rw [hstep]
    show l.foldlM (fun z i => Maze.btStep flips z i) mz' = some r
    exact hrest

/-- Claim C9: on every well-formed grid with positive dimensions, the
binary-tree generator never reaches the carve error branch (nor an index
panic): the whole run returns normally. -/
theorem claim_C9_no_panic (m : Maze) (flips : Nat → Bool)
    (_hw : 0 < m.width) (_hh : 0 < m.height) (hWF : m.WF) :
    (m.binary_tree flips).isSome = true := by
  obtain ⟨r, hr, -⟩ := foldlM_btStep_isSome flips
    (List.range (m.width * m.height)) m hWF
  unfold Maze.binary_tree
  rw [hr]
  rfl

/-- Claim C9 witness: the generator returns normally on a fresh 2×2 grid. -/
theorem claim_C9_no_panic_witness :
    0 < sample22.width ∧ 0 < sample22.height ∧ sample22.WF ∧
      (sample22.binary_tree (fun _ => true)).isSome = true :=
  ⟨by decide, by decide, ⟨by decide, by decide⟩,
    claim_C9_no_panic sample22 (fun _ => true) (by decide) (by decide)
      ⟨by decide, by decide⟩⟩

theorem cellIndex_lt (w h : Nat) (p : Point) (hx : p.x < w) (hy : p.y < h) :
    cellIndex w p < w * h := by
  have h2 : w * (p.y + 1) = w * p.y + w := Nat.mul_succ _ _
  have h3 : w * (p.y + 1) ≤ w * h := Nat.mul_le_mul_left _ (by omega)
  show p.x + w * p.y < w * h
  omega

/-- In the final maze, the north passage of a valid cell is open exactly when
that cell carved north. -/
theorem final_passage_north (w h : Nat) (flips : Nat → Bool) (p : Point)
    (hx : p.x < w) (hy : p.y < h) :
    (mazeAfter w h flips (w * h)).passage p Dir.North =
      some (carvesNorth w flips p) := by
  by_cases hy0 : 0 < p.y
  · have hval : (mazeAfter w h flips (w * h)).valid p = true := by
      rw [valid_iff]
      exact ⟨hx, hy⟩
    have hn1 : (mazeAfter w h flips (w * h)).neighbor p Dir.North =
        some ⟨p.x, p.y - 1⟩ := neighbor_north_some _ _ hval hy0
    rw [passage_north_eq _ _ _ hn1, mazeAfter_width]
    have hj : p.x + w * (p.y - 1) < w * (h - 1) :=
      south_slot_lt w h p.x p.y hx hy0 hy
    rw [mazeAfter_south_get w h flips (w * h) _ hj]
    have howner : southOwner w (p.x + w * (p.y - 1)) = p := by
      apply cellIndex_inj w _ _ (Nat.mod_lt _ (by omega)) hx
      rw [southOwner_cellIndex]
      have hmul : w * (p.y - 1) + w = w * p.y := by
        rw [← Nat.mul_succ]
        congr 1
        omega
      show p.x + w * (p.y - 1) + w = p.x + w * p.y
      omega
    rw [howner]
    have hlt : p.x + w * (p.y - 1) + w < w * h := by
      have hmul : w * (p.y - 1) + w = w * p.y := by
        rw [← Nat.mul_succ]
        congr 1
        omega
      have := cellIndex_lt w h p hx hy
      show _ < w * h
      have hci : cellIndex w p = p.x + w * p.y := rfl
      omega
    rw [decide_eq_true hlt]
    simp
  · have hn1 : (mazeAfter w h flips (w * h)).neighbor p Dir.North = none := by
      rcases p with ⟨px, py⟩
      rw [neighbor_north]
      exact if_neg (fun hc => hy0 hc.1)
    rw [passage_eq_of_neighbor_none _ _ _ hn1]
    have : carvesNorth w flips p = false := by
      unfold carvesNorth hasNorthNbr
      rw [decide_eq_false hy0]
      rfl
    rw [this]

/-- In the final maze, the east passage of a valid cell is open exactly when
that cell carved east. -/
theorem final_passage_east (w h : Nat) (flips : Nat → Bool) (p : Point)
    (hx : p.x < w) (hy : p.y < h) :
    (mazeAfter w h flips (w * h)).passage p Dir.East =
      some (carvesEast w flips p) := by
  by_cases hx1 : p.x + 1 < w
  · have hval : (mazeAfter w h flips (w * h)).valid p = true := by
      rw [valid_iff]
      exact ⟨hx, hy⟩
    have hn1 : (mazeAfter w h flips (w * h)).neighbor p Dir.East =
        some ⟨p.x + 1, p.y⟩ := neighbor_east_some _ _ hval hx1
    rw [passage_east_eq _ _ _ hn1, mazeAfter_width]
    have hj : p.x + (w - 1) * p.y < h * (w - 1) :=
      east_slot_lt w h p.x p.y (by omega) hy
    rw [mazeAfter_east_get w h flips (w * h) _ hj]
    have howner : eastOwner w (p.x + (w - 1) * p.y) = p := by
      unfold eastOwner
      have hxlt : p.x < w - 1 := by omega
      have hw1 : 0 < w - 1 := by omega
      have hmod : (p.x + (w - 1) * p.y) % (w - 1) = p.x := by
        rw [Nat.mul_comm, Nat.add_mul_mod_self_right, Nat.mod_eq_of_lt hxlt]
      have hdiv : (p.x + (w - 1) * p.y) / (w - 1) = p.y := by
        rw [Nat.add_mul_div_left _ _ hw1, Nat.div_eq_of_lt hxlt, Nat.zero_add]
      rw [hmod, hdiv]
    rw [howner]
    rw [decide_eq_true (cellIndex_lt w h p hx hy)]
    simp
  · have hn1 : (mazeAfter w h flips (w * h)).neighbor p Dir.East = none := by
      rcases p with ⟨px, py⟩
      rw [neighbor_east]
      refine if_neg (fun hc => ?_)
      have : px + 1 < (mazeAfter w h flips (w * h)).width :=
        ((valid_iff _ _).mp hc).1
      rw [mazeAfter_width] at this
      exact hx1 this
    rw [passage_eq_of_neighbor_none _ _ _ hn1]
    have : carvesEast w flips p = false := by
      unfold carvesEast hasEastNbr
      rw [decide_eq_false hx1]
      rfl
    rw [this]

/-- In the final maze, the south passage of a valid cell is open exactly when
the cell below exists and carved north. -/
theorem final_passage_south (w h : Nat) (flips : Nat → Bool) (p : Point)
    (hx : p.x < w) (hy : p.y < h) :
    (mazeAfter w h flips (w * h)).passage p Dir.South =
      some (decide (p.y + 1 < h) && carvesNorth w flips ⟨p.x, p.y + 1⟩) := by
  by_cases hy1 : p.y + 1 < h
  · have hn1 : (mazeAfter w h flips (w * h)).neighbor p Dir.South =
        some ⟨p.x, p.y + 1⟩ := neighbor_south_some _ _ hx hy1
    rw [passage_south_eq _ _ _ hn1, mazeAfter_width]
    have hj : p.x + w * p.y < w * (h - 1) := by
      have := south_slot_lt w h p.x (p.y + 1) hx (Nat.succ_pos _) hy1
      have hred : p.y + 1 - 1 = p.y := rfl
      rw [hred] at this
      exact this
    rw [mazeAfter_south_get w h flips (w * h) _ hj]
    have howner : southOwner w (p.x + w * p.y) = ⟨p.x, p.y + 1⟩ := by
      refine cellIndex_inj w _ _ (Nat.mod_lt _ (by omega))
        (show (⟨p.x, p.y + 1⟩ : Point).x < w from hx) ?_
      rw [southOwner_cellIndex]
      show p.x + w * p.y + w = p.x + w * (p.y + 1)
      rw [Nat.mul_succ]
      omega
    rw [howner]
    have hlt : p.x + w * p.y + w < w * h := by
      have := cellIndex_lt w h ⟨p.x, p.y + 1⟩ hx hy1
      have hci : cellIndex w ⟨p.x, p.y + 1⟩ = p.x + w * (p.y + 1) := rfl
      have hmul : w * (p.y + 1) = w * p.y + w := Nat.mul_succ _ _
      omega
    rw [decide_eq_true hlt, decide_eq_true hy1]
    simp
  · have hn1 : (mazeAfter w h flips (w * h)).neighbor p Dir.South = none :=
      neighbor_south_none _ _ hy1
    rw [passage_eq_of_neighbor_none _ _ _ hn1]
    rw [decide_eq_false hy1]
    rfl

/-- In the final maze, the west passage of a valid cell is open exactly when
the cell to its left exists and carved east. -/
theorem final_passage_west (w h : Nat) (flips : Nat → Bool) (p : Point)
    (hx : p.x < w) (hy : p.y < h) :
    (mazeAfter w h flips (w * h)).passage p Dir.West =
      some (decide (0 < p.x) && carvesEast w flips ⟨p.x - 1, p.y⟩) := by
  by_cases hx0 : 0 < p.x
  · have hn1 : (mazeAfter w h flips (w * h)).neighbor p Dir.West =
        some ⟨p.x - 1, p.y⟩ :=
      neighbor_west_some _ _ hx0 (by rw [mazeAfter_width]; omega)
        (by rw [mazeAfter_height]; exact hy)
    rw [passage_west_eq _ _ _ hn1, mazeAfter_width]
    have hj : p.x - 1 + (w - 1) * p.y < h * (w - 1) :=
      east_slot_lt w h (p.x - 1) p.y (by omega) hy
    rw [mazeAfter_east_get w h flips (w * h) _ hj]
    have howner : eastOwner w (p.x - 1 + (w - 1) * p.y) = ⟨p.x - 1, p.y⟩ := by
      unfold eastOwner
      have hxlt : p.x - 1 < w - 1 := by omega
      have hw1 : 0 < w - 1 := by omega
      have hmod : (p.x - 1 + (w - 1) * p.y) % (w - 1) = p.x - 1 := by
        rw [Nat.mul_comm, Nat.add_mul_mod_self_right, Nat.mod_eq_of_lt hxlt]
      have hdiv : (p.x - 1 + (w - 1) * p.y) / (w - 1) = p.y := by
        rw [Nat.add_mul_div_left _ _ hw1, Nat.div_eq_of_lt hxlt, Nat.zero_add]
      rw [hmod, hdiv]
    rw [howner]
    have hlt : cellIndex w ⟨p.x - 1, p.y⟩ < w * h :=
      cellIndex_lt w h ⟨p.x - 1, p.y⟩ (show p.x - 1 < w by omega) hy
    rw [decide_eq_true hlt, decide_eq_true hx0]
    simp
  · have hn1 : (mazeAfter w h flips (w * h)).neighbor p Dir.West = none :=
      neighbor_west_none _ _ (by omega)
    rw [passage_eq_of_neighbor_none _ _ _ hn1]
    rw [decide_eq_false hx0]
    rfl

theorem final_valid_iff (w h : Nat) (flips : Nat → Bool) (k : Nat) (p : Point) :
    (mazeAfter w h flips k).valid p = true ↔ p.x < w ∧ p.y < h := by
  rw [valid_iff, mazeAfter_width, mazeAfter_height]

/-- Every valid non-root cell carves north or east. -/
theorem carves_total (w h : Nat) (flips : Nat → Bool) (p : Point)
    (hx : p.x < w) (hy : p.y < h) (hne : p ≠ rootPt w) :
    carvesNorth w flips p = true ∨ carvesEast w flips p = true := by
  by_cases hn : 0 < p.y
  · by_cases he : p.x + 1 < w
    · cases hf : flips (cellIndex w p)
      · right
        unfold carvesEast hasEastNbr hasNorthNbr
        rw [decide_eq_true he, decide_eq_true hn, hf]
        rfl
      · left
        unfold carvesNorth hasNorthNbr hasEastNbr
        rw [decide_eq_true hn, decide_eq_true he, hf]
        rfl
    · left
      unfold carvesNorth hasNorthNbr hasEastNbr
      rw [decide_eq_true hn, decide_eq_false he]
      rfl
  · by_cases he : p.x + 1 < w
    · right
      unfold carvesEast hasEastNbr hasNorthNbr
      rw [decide_eq_true he, decide_eq_false hn]
      rfl
    · exfalso
      apply hne
      have hx1 : p.x = w - 1 := by omega
      have hy1 : p.y = 0 := by omega
      rcases p with ⟨px, py⟩
      unfold rootPt
      simp only at hx1 hy1
      rw [hx1, hy1]

/-- No cell carves both directions. -/
theorem carves_not_both (w : Nat) (flips : Nat → Bool) (p : Point)
    (h1 : carvesNorth w flips p = true) (h2 : carvesEast w flips p = true) :
    False := by
  unfold carvesNorth at h1
  unfold carvesEast at h2
  rw [Bool.and_eq_true] at h1 h2
  obtain ⟨hn, hor1⟩ := h1
  obtain ⟨he, hor2⟩ := h2
  rw [he] at hor1
  rw [hn] at hor2
  simp only [Bool.not_true, Bool.false_or] at hor1 hor2
  rw [hor1] at hor2
  cases hor2

theorem parentPt_north (w h : Nat) (flips : Nat → Bool) (p : Point)
    (hx : p.x < w) (hy : p.y < h) (hne : p ≠ rootPt w)
    (hN : carvesNorth w flips p = true) :
    parentPt w h flips p = ⟨p.x, p.y - 1⟩ := by
  unfold parentPt
  rw [if_pos ⟨hx, hy, hne⟩, if_pos hN]

theorem parentPt_east (w h : Nat) (flips : Nat → Bool) (p : Point)
    (hx : p.x < w) (hy : p.y < h) (hne : p ≠ rootPt w)
    (hN : carvesNorth w flips p = false)
    (hE : carvesEast w flips p = true) :
    parentPt w h flips p = ⟨p.x + 1, p.y⟩ := by
  unfold parentPt
  rw [if_pos ⟨hx, hy, hne⟩, if_neg (by rw [hN]; exact Bool.noConfusion), if_pos hE]

theorem parentPt_fix (w h : Nat) (flips : Nat → Bool) (p : Point)
    (hcond : ¬ (p.x < w ∧ p.y < h ∧ p ≠ rootPt w)) :
    parentPt w h flips p = p := by
  unfold parentPt
  rw [if_neg hcond]

/-- Fact: `carvesNorth` forces a row below the top. -/
theorem carvesNorth_pos (w : Nat) (flips : Nat → Bool) (p : Point)
    (hN : carvesNorth w flips p = true) : 0 < p.y := by
  unfold carvesNorth at hN
  rw [Bool.and_eq_true] at hN
  exact of_decide_eq_true hN.1

/-- Fact: `carvesEast` forces a column left of the right edge. -/
theorem carvesEast_lt (w : Nat) (flips : Nat → Bool) (p : Point)
    (hE : carvesEast w flips p = true) : p.x + 1 < w := by
  unfold carvesEast at hE
  rw [Bool.and_eq_true] at hE
  exact of_decide_eq_true hE.1

/-- A cell with `0 < y` is not the root. -/
theorem ne_root_of_pos_y (w : Nat) (p : Point) (hy : 0 < p.y) :
    p ≠ rootPt w := by
  intro heq
  have : p.y = 0 := congrArg Point.y heq
  omega

/-- A cell left of the right edge is not the root. -/
theorem ne_root_of_lt_x (w : Nat) (p : Point) (hx : p.x + 1 < w) :
    p ≠ rootPt w := by
  intro heq
  have : p.x = w - 1 := congrArg Point.x heq
  omega

/-- A directed open passage out of a valid cell of the final maze joins a
cell to its parent (one way or the other). -/
theorem rel_to_parent (w h : Nat) (flips : Nat → Bool) (p q : Point)
    (hvp : (mazeAfter w h flips (w * h)).valid p = true)
    (hvq : (mazeAfter w h flips (w * h)).valid q = true)
    (hconn : passageConn (mazeAfter w h flips (w * h)) p q) :
    (p.x < w ∧ p.y < h ∧ p ≠ rootPt w ∧ q = parentPt w h flips p) ∨
    (q.x < w ∧ q.y < h ∧ q ≠ rootPt w ∧ p = parentPt w h flips q) := by
  obtain ⟨hpx, hpy⟩ := (final_valid_iff w h flips _ p).mp hvp
  obtain ⟨hqx, hqy⟩ := (final_valid_iff w h flips _ q).mp hvq
  obtain ⟨d, hnd, hpass⟩ := hconn
  cases d
  case North =>
    rcases p with ⟨px, py⟩
    rw [neighbor_north] at hnd
    by_cases hc : 0 < py ∧ (mazeAfter w h flips (w * h)).valid ⟨px, py - 1⟩ = true
    · rw [if_pos hc] at hnd
      injection hnd with hq
      subst hq
      rw [final_passage_north w h flips ⟨px, py⟩ hpx hpy] at hpass
      injection hpass with hN
      left
      refine ⟨hpx, hpy, ne_root_of_pos_y w _ hc.1, ?_⟩
      rw [parentPt_north w h flips _ hpx hpy (ne_root_of_pos_y w _ hc.1) hN]
    · rw [if_neg hc] at hnd
      cases hnd
  case South =>
    rcases p with ⟨px, py⟩
    rw [neighbor_south] at hnd
    by_cases hc : (mazeAfter w h flips (w * h)).valid ⟨px, py + 1⟩ = true
    · rw [if_pos hc] at hnd
      injection hnd with hq
      subst hq
      rw [final_passage_south w h flips ⟨px, py⟩ hpx hpy] at hpass
      injection hpass with hS
      rw [Bool.and_eq_true] at hS
      right
      refine ⟨hqx, hqy, ne_root_of_pos_y w _ (Nat.succ_pos py), ?_⟩
      rw [parentPt_north w h flips _ hqx hqy
        (ne_root_of_pos_y w _ (Nat.succ_pos py)) hS.2]
      rfl
    · rw [if_neg hc] at hnd
      cases hnd
  case East =>
    rcases p with ⟨px, py⟩
    rw [neighbor_east] at hnd
    by_cases hc : (mazeAfter w h flips (w * h)).valid ⟨px + 1, py⟩ = true
    · rw [if_pos hc] at hnd
      injection hnd with hq
      subst hq
      rw [final_passage_east w h flips ⟨px, py⟩ hpx hpy] at hpass
      injection hpass with hE
      have hNfalse : carvesNorth w flips ⟨px, py⟩ = false := by
        cases hcn : carvesNorth w flips ⟨px, py⟩
        · rfl
        · exact (carves_not_both w flips _ hcn hE).elim
      have hxe : px + 1 < w := carvesEast_lt w flips _ hE
      left
      refine ⟨hpx, hpy, ne_root_of_lt_x w _ hxe, ?_⟩
      rw [parentPt_east w h flips _ hpx hpy (ne_root_of_lt_x w _ hxe) hNfalse hE]
    · rw [if_neg hc] at hnd
      cases hnd
  case West =>
    rcases p with ⟨px, py⟩
    rw [neighbor_west] at hnd
    by_cases hc : 0 < px ∧ (mazeAfter w h flips (w * h)).valid ⟨px - 1, py⟩ = true
    · rw [if_pos hc] at hnd
      injection hnd with hq
      subst hq
      rw [final_passage_west w h flips ⟨px, py⟩ hpx hpy] at hpass
      injection hpass with hW
      rw [Bool.and_eq_true] at hW
      have hE : carvesEast w flips ⟨px - 1, py⟩ = true := hW.2
      have hNfalse : carvesNorth w flips ⟨px - 1, py⟩ = false := by
        cases hcn : carvesNorth w flips ⟨px - 1, py⟩
        · rfl
        · exact (carves_not_both w flips _ hcn hE).elim
      have hxe : px - 1 + 1 < w := carvesEast_lt w flips _ hE
      right
      refine ⟨hqx, hqy, ne_root_of_lt_x w _ hxe, ?_⟩
      rw [parentPt_east w h flips _ hqx hqy (ne_root_of_lt_x w _ hxe) hNfalse hE]
      have hpx1 : px - 1 + 1 = px := by
        have := hc.1
        omega
      rw [hpx1]
    · rw [if_neg hc] at hnd
      cases hnd

/-- Every valid non-root cell of the final maze is adjacent to its parent. -/
theorem adj_to_parent (w h : Nat) (flips : Nat → Bool) (p : Point)
    (hx : p.x < w) (hy : p.y < h) (hne : p ≠ rootPt w) :
    (passageGraph (mazeAfter w h flips (w * h))).Adj p (parentPt w h flips p) := by
  cases hcn : carvesNorth w flips p
  case true =>
    have hy0 : 0 < p.y := carvesNorth_pos w flips p hcn
    rw [parentPt_north w h flips p hx hy hne hcn]
    unfold passageGraph
    rw [SimpleGraph.fromRel_adj]
    refine ⟨?_, Or.inl ⟨?_, ?_, Dir.North, ?_, ?_⟩⟩
    · intro heq
      have h2 : p.y = p.y - 1 := congrArg Point.y heq
      omega
    · exact (final_valid_iff w h flips _ _).mpr ⟨hx, hy⟩
    · exact (final_valid_iff w h flips _ _).mpr ⟨hx, show p.y - 1 < h by omega⟩
    · exact neighbor_north_some _ _ ((final_valid_iff w h flips _ _).mpr ⟨hx, hy⟩) hy0
    · rw [final_passage_north w h flips p hx hy, hcn]
  case false =>
    have hE : carvesEast w flips p = true := by
      rcases carves_total w h flips p hx hy hne with hN | hE
      · rw [hcn] at hN
        cases hN
      · exact hE
    have hx1 : p.x + 1 < w := carvesEast_lt w flips p hE
    rw [parentPt_east w h flips p hx hy hne hcn hE]
    unfold passageGraph
    rw [SimpleGraph.fromRel_adj]
    refine ⟨?_, Or.inl ⟨?_, ?_, Dir.East, ?_, ?_⟩⟩
    · intro heq
      have h2 : p.x = p.x + 1 := congrArg Point.x heq
      omega
    · exact (final_valid_iff w h flips _ _).mpr ⟨hx, hy⟩
    · exact (final_valid_iff w h flips _ _).mpr ⟨hx1, hy⟩
    · exact neighbor_east_some _ _ ((final_valid_iff w h flips _ _).mpr ⟨hx, hy⟩) hx1
    · rw [final_passage_east w h flips p hx hy, hE]

/-- Adjacency in the final passage graph is exactly the parent relation. -/
theorem final_adj_iff (w h : Nat) (flips : Nat → Bool) (p q : Point) :
    (passageGraph (mazeAfter w h flips (w * h))).Adj p q ↔
      ((p.x < w ∧ p.y < h ∧ p ≠ rootPt w ∧ q = parentPt w h flips p) ∨
       (q.x < w ∧ q.y < h ∧ q ≠ rootPt w ∧ p = parentPt w h flips q)) := by
  constructor
  · intro hadj
    unfold passageGraph at hadj
    rw [SimpleGraph.fromRel_adj] at hadj
    obtain ⟨hne, hrel⟩ := hadj
    rcases hrel with ⟨hvp, hvq, hconn⟩ | ⟨hvq, hvp, hconn⟩
    · exact rel_to_parent w h flips p q hvp hvq hconn
    · exact (rel_to_parent w h flips q p hvq hvp hconn).symm
  · intro hd
    rcases hd with ⟨hx, hy, hne, rfl⟩ | ⟨hx, hy, hne, rfl⟩
    · exact adj_to_parent w h flips p hx hy hne
    · exact (adj_to_parent w h flips q hx hy hne).symm

/-- In a graph whose edges all join a vertex to its parent, the parent rank
never increases. -/
theorem parent_mu_le {V : Type} (good : V → Prop) (root : V) (par : V → V)
    (mu : V → Nat)
    (hdec : ∀ v, good v → v ≠ root → mu (par v) < mu v)
    (hfix : ∀ v, ¬ (good v ∧ v ≠ root) → par v = v) :
    ∀ v, mu (par v) ≤ mu v := by
  intro v
  by_cases hc : good v ∧ v ≠ root
  · exact Nat.le_of_lt (hdec v hc.1 hc.2)
  · rw [hfix v hc]

theorem parent_iter_mu_le {V : Type} (good : V → Prop) (root : V) (par : V → V)
    (mu : V → Nat)
    (hdec : ∀ v, good v → v ≠ root → mu (par v) < mu v)
    (hfix : ∀ v, ¬ (good v ∧ v ≠ root) → par v = v) :
    ∀ (k : Nat) (v), mu (par^[k] v) ≤ mu v := by
  intro k
  induction k with
  | zero =>
    intro v
    rw [Function.iterate_zero_apply]
  | succ k ih =>
    intro v
    rw [Function.iterate_succ_apply]
    exact le_trans (ih (par v)) (parent_mu_le good root par mu hdec hfix v)

/-- The parent of `a` is not a descendant of `a`. -/
theorem parent_not_desc {V : Type} (good : V → Prop) (root : V) (par : V → V)
    (mu : V → Nat)
    (hdec : ∀ v, good v → v ≠ root → mu (par v) < mu v)
    (hfix : ∀ v, ¬ (good v ∧ v ≠ root) → par v = v)
    (a : V) (hga : good a) (hne : a ≠ root) :
    ¬ ∃ k, par^[k] (par a) = a := by
  rintro ⟨k, hk⟩
  have h1 : mu (par^[k] (par a)) ≤ mu (par a) :=
    parent_iter_mu_le good root par mu hdec hfix k (par a)
  rw [hk] at h1
  have h2 : mu (par a) < mu a := hdec a hga hne
  omega

/-- An edge leaving the descendant set of `a` must be the edge to `par a`. -/
theorem parent_cross {V : Type} (G : SimpleGraph V) (good : V → Prop)
    (root : V) (par : V → V)
    (hadj : ∀ a b, G.Adj a b ↔
      (good a ∧ a ≠ root ∧ b = par a) ∨ (good b ∧ b ≠ root ∧ a = par b))
    (a v u : V) (hv : ∃ k, par^[k] v = a) (hu : ¬ ∃ k, par^[k] u = a)
    (h : G.Adj v u) : v = a ∧ u = par a := by
  rw [hadj] at h
  rcases h with ⟨hgv, hvne, hupar⟩ | ⟨hgu, hune, hvpar⟩
  · obtain ⟨k, hk⟩ := hv
    cases k with
    | zero =>
      rw [Function.iterate_zero_apply] at hk
      exact ⟨hk, by rw [hupar, hk]⟩
    | succ k =>
      exfalso
      apply hu
      refine ⟨k, ?_⟩
      rw [Function.iterate_succ_apply] at hk
      rw [hupar]
      exact hk
  · exfalso
    apply hu
    obtain ⟨k, hk⟩ := hv
    refine ⟨k + 1, ?_⟩
    rw [Function.iterate_succ_apply, ← hvpar]
    exact hk

/-- No walk avoiding the edge `{a, par a}` can join a descendant of `a` to
`par a`. -/
theorem parent_no_walk {V : Type} (G : SimpleGraph V) (good : V → Prop)
    (root : V) (par : V → V) (mu : V → Nat)
    (hdec : ∀ v, good v → v ≠ root → mu (par v) < mu v)
    (hfix : ∀ v, ¬ (good v ∧ v ≠ root) → par v = v)
    (hadj : ∀ a b, G.Adj a b ↔
      (good a ∧ a ≠ root ∧ b = par a) ∨ (good b ∧ b ≠ root ∧ a = par b))
    (a : V) (hga : good a) (hne : a ≠ root) :
    ∀ (v t : V)
      (W : (G \ SimpleGraph.fromEdgeSet {s(a, par a)}).Walk v t),
      t = par a → (∃ k, par^[k] v = a) → False := by
  intro v t W
  induction W with
  | nil =>
    intro ht hv
    subst ht
    exact parent_not_desc good root par mu hdec hfix a hga hne hv
  | cons hadj' W ih =>
    rename_i v1 v2 v3
    intro ht hv
    by_cases hu : ∃ k, par^[k] v2 = a
    · exact ih ht hu
    · obtain ⟨hG, hnotH⟩ := (SimpleGraph.sdiff_adj _ _ _ _).mp hadj'
      have hcross := parent_cross G good root par hadj a v1 v2 hv hu hG
      apply hnotH
      rw [SimpleGraph.fromEdgeSet_adj]
      refine ⟨?_, G.ne_of_adj hG⟩
      rw [hcross.1, hcross.2]
      exact rfl

/-- Every parent edge is a bridge. -/
theorem parent_isBridge {V : Type} (G : SimpleGraph V) (good : V → Prop)
    (root : V) (par : V → V) (mu : V → Nat)
    (hdec : ∀ v, good v → v ≠ root → mu (par v) < mu v)
    (hfix : ∀ v, ¬ (good v ∧ v ≠ root) → par v = v)
    (hadj : ∀ a b, G.Adj a b ↔
      (good a ∧ a ≠ root ∧ b = par a) ∨ (good b ∧ b ≠ root ∧ a = par b))
    (a : V) (hga : good a) (hne : a ≠ root) :
    G.IsBridge s(a, par a) := by
  rw [SimpleGraph.isBridge_iff]
  constructor
  · rw [hadj]
    exact Or.inl ⟨hga, hne, rfl⟩
  · rintro ⟨W⟩
    exact parent_no_walk G good root par mu hdec hfix hadj a hga hne a _ W rfl ⟨0, rfl⟩

/-- A graph whose edges are exactly parent edges along a strictly decreasing
rank is acyclic. -/
theorem parent_isAcyclic {V : Type} (G : SimpleGraph V) (good : V → Prop)
    (root : V) (par : V → V) (mu : V → Nat)
    (hdec : ∀ v, good v → v ≠ root → mu (par v) < mu v)
    (hfix : ∀ v, ¬ (good v ∧ v ≠ root) → par v = v)
    (hadj : ∀ a b, G.Adj a b ↔
      (good a ∧ a ≠ root ∧ b = par a) ∨ (good b ∧ b ≠ root ∧ a = par b)) :
    G.IsAcyclic := by
  rw [SimpleGraph.isAcyclic_iff_forall_adj_isBridge]
  intro v u hvu
  rcases (hadj v u).mp hvu with ⟨hgv, hvne, rfl⟩ | ⟨hgu, hune, rfl⟩
  · exact parent_isBridge G good root par mu hdec hfix hadj v hgv hvne
  · rw [Sym2.eq_swap]
    exact parent_isBridge G good root par mu hdec hfix hadj u hgu hune

/-- Every good vertex reaches the root along parent edges. -/
theorem parent_reach_root {V : Type} (G : SimpleGraph V) (good : V → Prop)
    (root : V) (par : V → V) (mu : V → Nat)
    (hdec : ∀ v, good v → v ≠ root → mu (par v) < mu v)
    (hgood : ∀ v, good v → v ≠ root → good (par v))
    (hadjp : ∀ v, good v → v ≠ root → G.Adj v (par v)) :
    ∀ (n : Nat) (v), mu v ≤ n → good v → G.Reachable v root := by
  intro n
  induction n with
  | zero =>
    intro v hmu hg
    by_cases hne : v = root
    · subst hne
      exact SimpleGraph.Reachable.refl _
    · exfalso
      have := hdec v hg hne
      omega
  | succ n ih =>
    intro v hmu hg
    by_cases hne : v = root
    · subst hne
      exact SimpleGraph.Reachable.refl _
    · have h1 := hdec v hg hne
      exact (hadjp v hg hne).reachable.trans
        (ih (par v) (by omega) (hgood v hg hne))

/-- The rank strictly decreases along parents. -/
theorem final_mu_dec (w h : Nat) (flips : Nat → Bool) :
    ∀ p : Point, (p.x < w ∧ p.y < h) → p ≠ rootPt w →
      muRank w (parentPt w h flips p) < muRank w p := by
  rintro p ⟨hx, hy⟩ hne
  cases hcn : carvesNorth w flips p
  case true =>
    have hy0 : 0 < p.y := carvesNorth_pos w flips p hcn
    rw [parentPt_north w h flips p hx hy hne hcn]
    show (p.y - 1) * w + (w - 1 - p.x) < p.y * w + (w - 1 - p.x)
    have hmul : (p.y - 1) * w + w = p.y * w := by
      rw [← Nat.succ_mul]
      congr 1
      omega
    omega
  case false =>
    have hE : carvesEast w flips p = true := by
      rcases carves_total w h flips p hx hy hne with hN | hE
      · rw [hcn] at hN
        cases hN
      · exact hE
    have hx1 : p.x + 1 < w := carvesEast_lt w flips p hE
    rw [parentPt_east w h flips p hx hy hne hcn hE]
    show p.y * w + (w - 1 - (p.x + 1)) < p.y * w + (w - 1 - p.x)
    omega

/-- The parent of a good cell is good. -/
theorem final_good_par (w h : Nat) (flips : Nat → Bool) :
    ∀ p : Point, (p.x < w ∧ p.y < h) → p ≠ rootPt w →
      ((parentPt w h flips p).x < w ∧ (parentPt w h flips p).y < h) := by
  rintro p ⟨hx, hy⟩ hne
  cases hcn : carvesNorth w flips p
  case true =>
    rw [parentPt_north w h flips p hx hy hne hcn]
    exact ⟨hx, show p.y - 1 < h by omega⟩
  case false =>
    have hE : carvesEast w flips p = true := by
      rcases carves_total w h flips p hx hy hne with hN | hE
      · rw [hcn] at hN
        cases hN
      · exact hE
    rw [parentPt_east w h flips p hx hy hne hcn hE]
    exact ⟨carvesEast_lt w flips p hE, hy⟩

theorem final_par_fix (w h : Nat) (flips : Nat → Bool) :
    ∀ p : Point, ¬ ((p.x < w ∧ p.y < h) ∧ p ≠ rootPt w) →
      parentPt w h flips p = p :=
  fun p hc =>
    parentPt_fix w h flips p (fun hc2 => hc ⟨⟨hc2.1, hc2.2.1⟩, hc2.2.2⟩)

theorem final_hadj (w h : Nat) (flips : Nat → Bool) :
    ∀ a b : Point,
      (passageGraph (mazeAfter w h flips (w * h))).Adj a b ↔
        ((a.x < w ∧ a.y < h) ∧ a ≠ rootPt w ∧ b = parentPt w h flips a) ∨
        ((b.x < w ∧ b.y < h) ∧ b ≠ rootPt w ∧ a = parentPt w h flips b) := by
  intro a b
  rw [final_adj_iff]
  constructor
  · rintro (⟨h1, h2, h3, h4⟩ | ⟨h1, h2, h3, h4⟩)
    · exact Or.inl ⟨⟨h1, h2⟩, h3, h4⟩
    · exact Or.inr ⟨⟨h1, h2⟩, h3, h4⟩
  · rintro (⟨⟨h1, h2⟩, h3, h4⟩ | ⟨⟨h1, h2⟩, h3, h4⟩)
    · exact Or.inl ⟨h1, h2, h3, h4⟩
    · exact Or.inr ⟨h1, h2, h3, h4⟩

/-- Connectivity of the final maze: every pair of valid cells is joined by
carved passages. -/
theorem final_connected (w h : Nat) (flips : Nat → Bool) :
    ∀ p q : Point,
      (mazeAfter w h flips (w * h)).valid p = true →
      (mazeAfter w h flips (w * h)).valid q = true →
      (passageGraph (mazeAfter w h flips (w * h))).Reachable p q := by
  have hreach : ∀ r : Point, (r.x < w ∧ r.y < h) →
      (passageGraph (mazeAfter w h flips (w * h))).Reachable r (rootPt w) := by
    intro r hr
    exact parent_reach_root (passageGraph (mazeAfter w h flips (w * h)))
      (fun p => p.x < w ∧ p.y < h) (rootPt w) (parentPt w h flips) (muRank w)
      (final_mu_dec w h flips) (final_good_par w h flips)
      (fun v hv hne => adj_to_parent w h flips v hv.1 hv.2 hne)
      (muRank w r) r le_rfl hr
  intro p q hvp hvq
  exact (hreach p ((final_valid_iff w h flips _ p).mp hvp)).trans
    (hreach q ((final_valid_iff w h flips _ q).mp hvq)).symm

/-- Acyclicity of the final maze's passage graph. -/
theorem final_acyclic (w h : Nat) (flips : Nat → Bool) :
    (passageGraph (mazeAfter w h flips (w * h))).IsAcyclic :=
  parent_isAcyclic (passageGraph (mazeAfter w h flips (w * h)))
    (fun p : Point => p.x < w ∧ p.y < h) (rootPt w) (parentPt w h flips)
    (muRank w) (final_mu_dec w h flips) (final_par_fix w h flips)
    (final_hadj w h flips)

/-- Clearing a currently set flag increases the cleared-flag count by one. -/
theorem count_false_set_of_true (l : List Bool) :
    ∀ (i : Nat), l[i]? = some true →
      (l.set i false).count false = l.count false + 1 := by
  induction l with
  | nil =>
    intro i h
    cases h
  | cons a t ih =>
    intro i h
    cases i with
    | zero =>
      rw [List.getElem?_cons_zero] at h
      injection h with ha
      subst ha
      show (false :: t).count false = (true :: t).count false + 1
      rw [List.count_cons, List.count_cons]
      simp
    | succ i =>
      rw [List.getElem?_cons_succ] at h
      show (a :: t.set i false).count false = (a :: t).count false + 1
      rw [List.count_cons, List.count_cons, ih i h]
      omega

/-- Each generator step adds one carved passage, except at the top-right
corner cell (linear index `w - 1`). -/
theorem carvedCount_step (w h : Nat) (flips : Nat → Bool) (hw : 0 < w)
    (hh : 0 < h) (k : Nat) (hk : k < w * h) :
    carvedCount (mazeAfter w h flips (k + 1)) =
      carvedCount (mazeAfter w h flips k) + (if k = w - 1 then 0 else 1) := by
  have hptx : k % w < w := Nat.mod_lt _ hw
  have hpty : k / w < h := by
    rw [Nat.div_lt_iff_lt_mul hw, Nat.mul_comm]
    exact hk
  have hcell : cellIndex w ⟨k % w, k / w⟩ = k := by
    show k % w + w * (k / w) = k
    rw [Nat.mod_add_div]
  by_cases hroot : k = w - 1
  · rw [if_pos hroot, Nat.add_zero]
    have hklt : k < w := by omega
    have hcN : carvesNorth w flips ⟨k % w, k / w⟩ = false := by
      unfold carvesNorth hasNorthNbr
      simp [Nat.div_eq_of_lt hklt]
    have hcE : carvesEast w flips ⟨k % w, k / w⟩ = false := by
      unfold carvesEast hasEastNbr
      have hno : ¬ ((⟨k % w, k / w⟩ : Point).x + 1 < w) := by
        have : k % w = k := Nat.mod_eq_of_lt hklt
        show ¬ (k % w + 1 < w)
        omega
      rw [decide_eq_false hno]
      rfl
    unfold carvedCount
    rw [mazeAfter_east_unchanged w h flips k _ hptx hcell hcE,
      mazeAfter_south_unchanged w h flips k _ hw hptx hcell hcN]
    omega
  · rw [if_neg hroot]
    have hne : (⟨k % w, k / w⟩ : Point) ≠ rootPt w := by
      intro heq
      apply hroot
      have h2 := congrArg (cellIndex w) heq
      rw [hcell] at h2
      rw [h2]
      rfl
    rcases carves_total w h flips ⟨k % w, k / w⟩ hptx hpty hne with hN | hE0
    · have hcE : carvesEast w flips ⟨k % w, k / w⟩ = false := by
        cases hc : carvesEast w flips ⟨k % w, k / w⟩
        · rfl
        · exact (carves_not_both w flips _ hN hc).elim
      have hy0 : 0 < k / w := carvesNorth_pos w flips _ hN
      have hi : k % w + w * (k / w - 1) < w * (h - 1) :=
        south_slot_lt w h (k % w) (k / w) hptx hy0 hpty
      have hiw : k % w + w * (k / w - 1) + w = k := by
        have hmul : w * (k / w - 1) + w = w * (k / w) := by
          rw [← Nat.mul_succ]
          congr 1
          omega
        have h3 : cellIndex w ⟨k % w, k / w⟩ = k % w + w * (k / w) := rfl
        omega
      have hval : (mazeAfter w h flips k).south_walls[k % w + w * (k / w - 1)]? =
          some true := by
        rw [mazeAfter_south_get w h flips k _ hi]
        have howner : southOwner w (k % w + w * (k / w - 1)) = ⟨k % w, k / w⟩ := by
          refine cellIndex_inj w _ _ (Nat.mod_lt _ hw) hptx ?_
          rw [southOwner_cellIndex, hiw, hcell]
        rw [howner, decide_eq_false (show ¬ (k % w + w * (k / w - 1) + w < k) by omega)]
        rw [Bool.and_false]
        rfl
      unfold carvedCount
      rw [mazeAfter_east_unchanged w h flips k _ hptx hcell hcE,
        ← mazeAfter_south_set w h flips k _ hw hptx hpty hy0 hcell hN]
      rw [count_false_set_of_true _ _ hval]
      omega
    · have hcN : carvesNorth w flips ⟨k % w, k / w⟩ = false := by
        cases hc : carvesNorth w flips ⟨k % w, k / w⟩
        · rfl
        · exact (carves_not_both w flips _ hc hE0).elim
      have hx1 : k % w + 1 < w := carvesEast_lt w flips _ hE0
      have hi : k % w + (w - 1) * (k / w) < h * (w - 1) :=
        east_slot_lt w h (k % w) (k / w) (by omega) hpty
      have hval : (mazeAfter w h flips k).east_walls[k % w + (w - 1) * (k / w)]? =
          some true := by
        rw [mazeAfter_east_get w h flips k _ hi]
        have howner : eastOwner w (k % w + (w - 1) * (k / w)) = ⟨k % w, k / w⟩ := by
          unfold eastOwner
          have hxlt : k % w < w - 1 := by omega
          have hw1 : 0 < w - 1 := by omega
          have hmod : (k % w + (w - 1) * (k / w)) % (w - 1) = k % w := by
            rw [Nat.mul_comm, Nat.add_mul_mod_self_right, Nat.mod_eq_of_lt hxlt]
          have hdiv : (k % w + (w - 1) * (k / w)) / (w - 1) = k / w := by
            rw [Nat.add_mul_div_left _ _ hw1, Nat.div_eq_of_lt hxlt, Nat.zero_add]
          rw [hmod, hdiv]
        rw [howner, hcell,
          decide_eq_false (show ¬ (k < k) by omega)]
        rw [Bool.and_false]
        rfl
      unfold carvedCount
      rw [mazeAfter_south_unchanged w h flips k _ hw hptx hcell hcN,
        ← mazeAfter_east_set w h flips k _ hx1 hpty hcell hE0]
      rw [count_false_set_of_true _ _ hval]
      omega

/-- After the full run, exactly `w*h - 1` passages have been carved. -/
theorem carvedCount_final (w h : Nat) (flips : Nat → Bool) (hw : 0 < w)
    (hh : 0 < h) :
    carvedCount (mazeAfter w h flips (w * h)) = w * h - 1 := by
  have hwh : w ≤ w * h := by
    calc w = w * 1 := (Nat.mul_one w).symm
      _ ≤ w * h := Nat.mul_le_mul_left w hh
  suffices hgen : ∀ k, k ≤ w * h →
      carvedCount (mazeAfter w h flips k) = k - (if w ≤ k then 1 else 0) by
    have h1 := hgen (w * h) le_rfl
    rw [if_pos hwh] at h1
    exact h1
  intro k
  induction k with
  | zero =>
    intro _
    rw [if_neg (by omega)]
    rw [mazeAfter_zero]
    unfold carvedCount
    simp [List.count_replicate]
  | succ k ih =>
    intro hk1
    rw [carvedCount_step w h flips hw hh k (by omega), ih (by omega)]
    by_cases hroot : k = w - 1
    · rw [if_pos hroot, if_neg (show ¬ w ≤ k by omega),
        if_pos (show w ≤ k + 1 by omega)]
      omega
    · rw [if_neg hroot]
      by_cases hwk : w ≤ k
      · rw [if_pos hwk, if_pos (show w ≤ k + 1 by omega)]
        omega
      · rw [if_neg hwk, if_neg (show ¬ w ≤ k + 1 by omega)]
        omega

/-- Claim C1: running the binary-tree generator once on a freshly
constructed grid (all walls closed) yields a carving in which every valid
cell is reachable from every other via passages, the passage graph is
acyclic, and the number of carved passages (cleared wall flags) is
`width*height - 1` — for every grid size and every sequence of coin-flip
outcomes. -/
theorem claim_C1_spanning_tree (w h : Nat) (flips : Nat → Bool) (m0 : Maze)
    (hnew : Maze.new w h = Except.ok m0) :
    ∃ m1, m0.binary_tree flips = some m1 ∧
      (∀ p q : Point, m1.valid p = true → m1.valid q = true →
        (passageGraph m1).Reachable p q) ∧
      (passageGraph m1).IsAcyclic ∧
      m1.east_walls.count false + m1.south_walls.count false = w * h - 1 := by
  obtain ⟨hw, hh, hm0⟩ := new_ok w h m0 hnew
  subst hm0
  rw [← mazeAfter_zero w h flips]
  exact ⟨mazeAfter w h flips (w * h), binary_tree_mazeAfter w h flips hw hh,
    final_connected w h flips, final_acyclic w h flips,
    carvedCount_final w h flips hw hh⟩

/-- Claim C1 witness: the spanning-tree properties hold on a concrete 2×2
grid with an all-heads flip sequence. -/
theorem claim_C1_spanning_tree_witness :
    Maze.new 2 2 = Except.ok sample22 ∧
      (∃ m1, sample22.binary_tree (fun _ => true) = some m1 ∧
        (∀ p q : Point, m1.valid p = true → m1.valid q = true →
          (passageGraph m1).Reachable p q) ∧
        (passageGraph m1).IsAcyclic ∧
        m1.east_walls.count false + m1.south_walls.count false = 2 * 2 - 1) :=
  ⟨rfl, claim_C1_spanning_tree 2 2 (fun _ => true) sample22 rfl⟩
